import Mathlib

/-!
# Verification of the MVP-SQL schema-graph engine

A shallow embedding, in Lean 4, of the schema-profiling / graph-construction /
graph-query code of the MVP-SQL repository, together with proofs checking the
repository's specification against it.

Embedded components (file of origin in parentheses):

* `generate_fk_hash` (`graph/utils.py`) — the md5 primitive of `hashlib` is an
  external library call and is taken as a parameter `md5 : String → String`;
  everything around it (qualification, lexicographic sort of the two
  endpoints, joining with `"|"`) is embedded faithfully.
* the networkx `DiGraph` mutated by `GraphLoader` (`graph/graph_loader.py`),
  modelled as association lists of nodes and edges carrying attribute
  dictionaries (`Attrs`), with networkx's `add_node` / `add_edge` merge
  semantics.
* `DataProfiler._get_word_frequency`, `_get_mode`, `_analyze_numeric`
  (`graph/data_profiler.py`), over integer-valued columns; Python's
  `Counter` is an insertion-ordered association list, `sorted(...,
  reverse=True)` a stable descending insertion sort.
* `NetworkXExplorer` (`src/graph/nx_explorer.py`): `get_neighbors`,
  `get_shortest_path`, `is_subgraph_connected`.  The networkx library calls
  (`single_source_shortest_path_length`, `shortest_path`, `is_connected`) are
  embedded as iterated frontier expansion (`reach`) over the undirected view;
  exceptions (`NodeNotFound`, `NetworkXNoPath`, the null-graph error of
  `is_connected`) are modelled with `Option`/`Except`.
* `GraphRepoConverter.convert_single` (`src/graph/convert_repo.py`).
* the row-count / sampling-limit interplay of `SQLiteHandler.get_row_count`
  and `SchemaPipeline.run` (`graph/sqlite_handler.py`, `graph/pileline.py`);
  Python's `None > 100000` `TypeError` is modelled with `Except`.
-/

/-! ## `graph/utils.py` : `generate_fk_hash` -/

/-- Python's `sorted([a, b])` on two strings: stable two-element sort in the
lexicographic string order (Python compares strings by code points, as does
`String`'s linear order). -/
def pySort2 (a b : String) : List String :=
  if b < a then [b, a] else [a, b]

/-- `generate_fk_hash(table1, column1, table2, column2)` from
`graph/utils.py`: qualify both endpoints, sort the two qualified strings
lexicographically, join with `"|"`, and apply the md5-hexdigest primitive
(taken as the parameter `md5`, since `hashlib.md5` is an external library
call). -/
def generate_fk_hash (md5 : String → String)
    (table1 column1 table2 column2 : String) : String :=
  md5 (String.intercalate "|"
    (pySort2 (table1 ++ "." ++ column1) (table2 ++ "." ++ column2)))

/-! ## Attribute dictionaries and the networkx `DiGraph` model -/

/-- A Python attribute value, as stored in networkx node/edge attribute
dictionaries by this repository: strings, integers, booleans, lists of
strings, or `None`. -/
inductive PVal where
  | s (v : String)
  | i (v : Int)
  | b (v : Bool)
  | strList (v : List String)
  | null
  deriving DecidableEq, Repr

/-- An attribute dictionary: an insertion-ordered association list, like a
Python `dict`. -/
abbrev Attrs := List (String × PVal)

/-- `d[k] = v` on a Python dict: replace in place if the key exists, else
append at the end (insertion order preserved). -/
def setKey : Attrs → String → PVal → Attrs
  | [], k, v => [(k, v)]
  | (k', v') :: rest, k, v =>
    if k' = k then (k', v) :: rest else (k', v') :: setKey rest k v

/-- `d.update(props)` / `{**base, **props}`: write every binding of `props`
into `base`, in order. -/
def mergeAttrs (base props : Attrs) : Attrs :=
  props.foldl (fun a kv => setKey a kv.1 kv.2) base

/-- `d.setdefault(k, v)`: set `k` to `v` only when `k` is absent. -/
def setdefaultKey (a : Attrs) (k : String) (v : PVal) : Attrs :=
  match a.lookup k with
  | some _ => a
  | none => setKey a k v

/-- The networkx `DiGraph` used by `GraphLoader` and the explorer: nodes and
directed edges, each with an attribute dictionary, both kept as
insertion-ordered association lists. -/
structure DiGraph where
  nodes : List (String × Attrs)
  edges : List ((String × String) × Attrs)
  deriving DecidableEq, Repr

def DiGraph.empty : DiGraph := ⟨[], []⟩

def findNodeAttrs (g : DiGraph) (id : String) : Option Attrs :=
  g.nodes.lookup id

def hasNode (g : DiGraph) (id : String) : Bool :=
  (findNodeAttrs g id).isSome

def nodeIds (g : DiGraph) : List String :=
  g.nodes.map Prod.fst

/-- Attribute lookup on a node: `G.nodes[id].get(key)` (with `none` both for
a missing node and a missing key). -/
def lookupAttr (g : DiGraph) (id : String) (key : String) : Option PVal :=
  (findNodeAttrs g id).bind (fun a => a.lookup key)

/-- Apply `f` to the attribute dictionary stored under key `id`, leaving the
other entries unchanged. -/
def updateEntries (id : String) (f : Attrs → Attrs) :
    List (String × Attrs) → List (String × Attrs)
  | [] => []
  | (k, a) :: rest =>
    if k = id then (k, f a) :: updateEntries id f rest
    else (k, a) :: updateEntries id f rest

/-- Replace the attribute dictionary of node `id` by `f` applied to it
(identity on other nodes). -/
def updateNodeAttrs (g : DiGraph) (id : String) (f : Attrs → Attrs) : DiGraph :=
  ⟨updateEntries id f g.nodes, g.edges⟩

/-- networkx `G.add_node(id, **attrs)`: update the attribute dictionary when
the node exists, else append a fresh node. -/
def addNode (g : DiGraph) (id : String) (attrs : Attrs) : DiGraph :=
  if hasNode g id then updateNodeAttrs g id (fun a => mergeAttrs a attrs)
  else ⟨g.nodes ++ [(id, attrs)], g.edges⟩

/-- Add node `id` with an empty attribute dictionary when it is missing
(networkx does this for edge endpoints). -/
def ensureNode (g : DiGraph) (id : String) : DiGraph :=
  if hasNode g id then g else ⟨g.nodes ++ [(id, [])], g.edges⟩

def findEdgeAttrs (g : DiGraph) (u v : String) : Option Attrs :=
  g.edges.lookup (u, v)

def hasEdge (g : DiGraph) (u v : String) : Bool :=
  (findEdgeAttrs g u v).isSome

/-- networkx `G.add_edge(u, v, **attrs)` on a `DiGraph`: create missing
endpoints with empty attribute dictionaries, then update the edge's
dictionary when the edge exists, else append the edge. -/
def addEdge (g : DiGraph) (u v : String) (attrs : Attrs) : DiGraph :=
  let g := ensureNode (ensureNode g u) v
  if hasEdge g u v then
    ⟨g.nodes, g.edges.map (fun e => if e.1 = (u, v) then (e.1, mergeAttrs e.2 attrs) else e)⟩
  else ⟨g.nodes, g.edges ++ [((u, v), attrs)]⟩

/-! ## `graph/graph_loader.py` : `GraphLoader` -/

/-- `GraphLoader.add_table_node(table_name, **properties)`: pre-initialized
base attributes (`type`, `name`, empty `reference_to` / `referenced_by`),
overridden by the caller's properties, written with `add_node`. -/
def add_table_node (g : DiGraph) (tableName : String) (properties : Attrs) : DiGraph :=
  addNode g tableName (mergeAttrs
    [("type", .s "Table"), ("name", .s tableName),
     ("reference_to", .strList []), ("referenced_by", .strList [])]
    properties)

/-- `GraphLoader.add_column_node(...)`: the column node keyed
`"<table>.<column>"`, plus the `HAS_COLUMN` edge whose `relation_type` is the
four-way pk/fk classification. -/
def add_column_node (g : DiGraph) (tableName columnName : String)
    (isPrimaryKey isForeignKey : Bool) (properties : Attrs) : DiGraph :=
  let colNodeId := tableName ++ "." ++ columnName
  let baseProps : Attrs :=
    [("type", .s "Column"), ("name", .s columnName),
     ("belongs_to", .s tableName),
     ("referenced_to", .strList []), ("referenced_by", .strList []),
     ("is_primary_key", .b isPrimaryKey), ("is_foreign_key", .b isForeignKey)]
  let relationType : String :=
    if isPrimaryKey && isForeignKey then "primary_and_foreign_key"
    else if isPrimaryKey then "primary_key"
    else if isForeignKey then "foreign_key"
    else "normal_column"
  let g := addNode g colNodeId (mergeAttrs baseProps properties)
  addEdge g tableName colNodeId
    [("type", .s "HAS_COLUMN"), ("relation_type", .s relationType)]

/-- The `safe_append` closure of `GraphLoader.add_foreign_key`: when node
`id` exists, append `v` to the list stored under `key`, initializing a
missing key to the empty list first.  (When the stored value is not a list,
Python's `.append` would raise; the pipeline never produces that state, and
the model leaves the graph unchanged there.) -/
def safeAppend (g : DiGraph) (id key v : String) : DiGraph :=
  if hasNode g id then
    match lookupAttr g id key with
    | some (.strList l) => updateNodeAttrs g id (fun a => setKey a key (.strList (l ++ [v])))
    | none => updateNodeAttrs g id (fun a => setKey a key (.strList [v]))
    | some _ => g
  else g

/-- `GraphLoader.add_foreign_key(from_table, from_column, to_table,
to_column)`: the `FOREIGN_KEY` table-to-table edge with its reference path
and hash, then the four `safe_append` list updates. -/
def add_foreign_key (md5 : String → String) (g : DiGraph)
    (fromTable fromColumn toTable toColumn : String) : DiGraph :=
  let referencePath := fromTable ++ "." ++ fromColumn ++ "=" ++ toTable ++ "." ++ toColumn
  let fkHash := generate_fk_hash md5 fromTable fromColumn toTable toColumn
  let g := addEdge g fromTable toTable
    [("type", .s "FOREIGN_KEY"),
     ("from_table", .s fromTable), ("from_column", .s fromColumn),
     ("to_table", .s toTable), ("to_column", .s toColumn),
     ("reference_path", .s referencePath), ("fk_hash", .s fkHash)]
  let g := safeAppend g toTable "referenced_by" referencePath
  let g := safeAppend g fromTable "reference_to" referencePath
  let g := safeAppend g (fromTable ++ "." ++ fromColumn) "referenced_to"
    (toTable ++ "." ++ toColumn)
  safeAppend g (toTable ++ "." ++ toColumn) "referenced_by"
    (fromTable ++ "." ++ fromColumn)

/-! ## Helper views used by the claims about `add_foreign_key` -/

/-- Length of the string list stored at `(id, key)` (0 when the node, the
key, or a list value is missing) — the claims count appends through it. -/
def refListLen (g : DiGraph) (id key : String) : Nat :=
  match lookupAttr g id key with
  | some (.strList l) => l.length
  | _ => 0

/-- The string list stored at `(id, key)`, empty when absent. -/
def refList (g : DiGraph) (id key : String) : List String :=
  match lookupAttr g id key with
  | some (.strList l) => l
  | _ => []

/-- The endpoints of the `FOREIGN_KEY`-typed edges of the graph, in insertion
order. -/
def fkEdgeEndpoints (g : DiGraph) : List (String × String) :=
  (g.edges.filter (fun e => e.2.lookup "type" = some (.s "FOREIGN_KEY"))).map Prod.fst

/-! ## `graph/data_profiler.py` : `DataProfiler` -/

/-- One step of building a Python `collections.Counter`: increment the count
of `v` in place when present, else append `(v, 1)` (Python dicts keep
insertion order, so new keys go to the end). -/
def counterIncr {α : Type} [DecidableEq α] :
    List (α × Nat) → α → List (α × Nat)
  | [], v => [(v, 1)]
  | (k, n) :: rest, v =>
    if k = v then (k, n + 1) :: rest else (k, n) :: counterIncr rest v

/-- `collections.Counter(values)` as an insertion-ordered association list. -/
def counter {α : Type} [DecidableEq α] (values : List α) : List (α × Nat) :=
  values.foldl counterIncr []

/-- Stable insertion for a descending-by-count sort: an element passes items
of strictly larger count and stops before the first item of smaller-or-equal
count, so items of equal count keep their original relative order (Python's
`sorted` is stable). -/
def insertDescByCount {α : Type} (x : α × Nat) :
    List (α × Nat) → List (α × Nat)
  | [] => [x]
  | y :: ys => if x.2 ≥ y.2 then x :: y :: ys else y :: insertDescByCount x ys

/-- `sorted(word_count_dict.items(), key=itemgetter(1), reverse=True)`:
stable descending sort by count. -/
def sortDescByCount {α : Type} (l : List (α × Nat)) : List (α × Nat) :=
  l.foldr insertDescByCount []

/-- The selection loop of `DataProfiler._get_word_frequency`: walk the ranked
`(word, freq)` list; stop at `topK` results; a frequency-1 entry marks
`foundOneFreq` and is admitted only while fewer than 3 frequency-1 entries
were admitted and its word has at most 20 characters; an entry of frequency
≠ 1 is admitted only while no frequency-1 entry has been encountered. -/
def selectTopWords (topK : Nat) :
    List (String × Nat) → List (String × Nat) → Nat → Bool → List (String × Nat)
  | [], result, _, _ => result
  | (word, freq) :: rest, result, oneFreqCount, foundOneFreq =>
    if result.length ≥ topK then result
    else if freq = 1 then
      if word.length ≤ 20 ∧ oneFreqCount < 3 then
        selectTopWords topK rest (result ++ [(word, freq)]) (oneFreqCount + 1) true
      else
        selectTopWords topK rest result oneFreqCount true
    else
      if foundOneFreq then selectTopWords topK rest result oneFreqCount foundOneFreq
      else selectTopWords topK rest (result ++ [(word, freq)]) oneFreqCount foundOneFreq

/-- `DataProfiler._get_word_frequency(values)` with the default arguments
`top_k=10`, `by_word=False`: count whole values, sort descending by
frequency (stably), then run the selection loop.  (The caller serializes the
resulting table with `json.dumps`; the table itself is modelled.) -/
def getWordFrequency (values : List String) : List (String × Nat) :=
  if values = [] then []
  else selectTopWords 10 (sortDescByCount (counter values)) [] 0 false

/-- Python's `max(iterable)` over the counts of a counter, as used by
`_get_mode` (the counter is nonempty there; the fold with default 0 agrees
with Python's `max` since counts are positive). -/
def maxCount {α : Type} (cd : List (α × Nat)) : Nat :=
  cd.foldl (fun m e => max m e.2) 0

/-- `DataProfiler._get_mode(values)` over an integer-valued column: empty
input gives `[]`; otherwise all keys of the counter whose count equals the
maximal count, or `[]` when that maximum is ≤ 1.  (The `Decimal`/`bool`
conversions of the source are the identity on integer-valued data.) -/
def getMode (values : List Int) : List Int :=
  if values = [] then []
  else
    let countDict := counter values
    let mx := maxCount countDict
    if mx ≤ 1 then []
    else (countDict.filter (fun e => e.2 = mx)).map Prod.fst

/-- `startsWithSeq hay needle`: `hay` begins with `needle`. -/
def startsWithSeq : List Char → List Char → Bool
  | _, [] => true
  | [], _ :: _ => false
  | c :: rest, n :: ns => c = n && startsWithSeq rest ns

/-- `needle in hay` for Python strings, on the character lists. -/
def containsSeq (needle : List Char) : List Char → Bool
  | [] => needle.isEmpty
  | c :: rest => startsWithSeq (c :: rest) needle || containsSeq needle rest

/-- Python's `str.lower()`, character by character (agrees with Python on the
ASCII column names handled here). -/
def pyLower (s : String) : String :=
  ⟨s.data.map Char.toLower⟩

/-- `"id" in column_name.lower()` — the identifier heuristic of
`_analyze_numeric`. -/
def isIdColumn (columnName : String) : Bool :=
  containsSeq "id".data (pyLower columnName).data

/-- The numeric statistics bundle written by `_analyze_numeric` into the
attribute dictionary.  `numeric_range`: the key is always written (`none`
models Python `None`).  `numeric_mode`: `none` models an absent key.
`numeric_mean`: `none` models an absent key, `some none` a key holding
`None`. -/
structure NumericAttrs where
  numeric_range : Option (Int × Int)
  numeric_mode : Option (List Int)
  numeric_mean : Option (Option Rat)
  deriving DecidableEq, Repr

/-- The arithmetic mean `np.mean` of a list of integers, as an exact
rational. -/
def meanRat (values : List Int) : Rat :=
  ((values.map (fun v => (v : Rat))).sum) / (values.length : Rat)

/-- `DataProfiler._analyze_numeric(values, data_type, column_name, ...)` over
an integer-valued column (the `isinstance` filter keeps every value of an
integer column, and the `float(Decimal(str(v)))` / `int(v)` conversions of
the `DECIMAL`/`NUMERIC` and `BOOLEAN` branches are exact on integers, so the
three mean branches compute the same arithmetic mean). -/
def analyzeNumeric (values : List Int) (dataType : String)
    (columnName : String) : NumericAttrs :=
  let validValues := values
  let range : Option (Int × Int) :=
    match validValues.min?, validValues.max? with
    | some a, some b => some (a, b)
    | _, _ => none
  if isIdColumn columnName then
    { numeric_range := range, numeric_mode := none, numeric_mean := none }
  else
    let mode := getMode validValues
    let modeAttr : Option (List Int) := if mode = [] then none else some mode
    let meanAttr : Option (Option Rat) :=
      if validValues = [] then some none
      else if dataType = "DECIMAL" ∨ dataType = "NUMERIC" then
        some (some (meanRat validValues))
      else if dataType = "BOOLEAN" then some (some (meanRat validValues))
      else some (some (meanRat validValues))
    { numeric_range := range, numeric_mode := modeAttr, numeric_mean := meanAttr }

/-! ## `src/graph/nx_explorer.py` : `NetworkXExplorer`

The networkx graph-search calls are embedded as iterated frontier expansion
over an explicit universe of vertices and a boolean adjacency relation; for
the explorer the universe is the node list of the graph and the adjacency
the undirected view (`G.to_undirected()`), for `is_subgraph_connected` the
induced subgraph. -/

/-- One breadth-first expansion step: keep the reached set and append every
universe vertex not yet reached that is adjacent to a reached vertex. -/
def expandFrontier (univ : List String) (adj : String → String → Bool)
    (s : List String) : List String :=
  s ++ univ.filter (fun v => !s.contains v && s.any (fun u => adj u v))

/-- Vertices at distance at most `k` from `src` (the breadth-first search of
`nx.single_source_shortest_path_length` / `nx.bfs` with cutoff `k`). -/
def reach (univ : List String) (adj : String → String → Bool)
    (src : String) : Nat → List String
  | 0 => [src]
  | k + 1 => expandFrontier univ adj (reach univ adj src k)

/-- The undirected view `G.to_undirected()`: an edge in either direction. -/
def undirAdj (g : DiGraph) (u v : String) : Bool :=
  hasEdge g u v || hasEdge g v u

/-- `G.nodes[v].get("type") == "Table"`. -/
def isTableNode (g : DiGraph) (v : String) : Bool :=
  lookupAttr g v "type" = some (.s "Table")

/-- `NetworkXExplorer.get_neighbors(table_name, hop)`:
`nx.single_source_shortest_path_length` on the undirected view with cutoff
`hop` yields the vertices of distance ≤ `hop` (the set `reach ... hop`, the
source being the sole vertex of distance 0); the code keeps those of
positive distance whose `type` is `"Table"`.  A missing source makes the
networkx call raise `NodeNotFound`, modelled by `none`. -/
def get_neighbors (g : DiGraph) (tableName : String) (hop : Nat) :
    Option (List String) :=
  if hasNode g tableName then
    some ((nodeIds g).filter (fun v =>
      (reach (nodeIds g) (undirAdj g) tableName hop).contains v &&
        v ≠ tableName && isTableNode g v))
  else none

/-- Reconstruct a breadth-first shortest path ending at `t`, given that `t`
is reached within `d` steps: walk back through a predecessor in the previous
frontier. -/
def buildPath (univ : List String) (adj : String → String → Bool)
    (src : String) : Nat → String → List String
  | 0, t => [t]
  | d + 1, t =>
    if t ∈ reach univ adj src d then buildPath univ adj src d t
    else
      match (reach univ adj src d).find? (fun u => adj u t) with
      | some u => buildPath univ adj src d u ++ [t]
      | none => [t]

/-- `NetworkXExplorer.get_shortest_path(source_table, target_table)`:
`nx.shortest_path` on the undirected view — raising `NodeNotFound` for a
missing endpoint and `NetworkXNoPath` when the target is unreachable, both
caught and turned into `[]` — followed by the filter keeping `"Table"`-typed
vertices of the path. -/
def get_shortest_path (g : DiGraph) (sourceTable targetTable : String) :
    List String :=
  let univ := nodeIds g
  let adj := undirAdj g
  if hasNode g sourceTable ∧ hasNode g targetTable then
    if h : targetTable ∈ reach univ adj sourceTable (univ.length + 1) then
      have hex : ∃ k, targetTable ∈ reach univ adj sourceTable k :=
        ⟨univ.length + 1, h⟩
      (buildPath univ adj sourceTable (Nat.find hex) targetTable).filter
        (fun v => isTableNode g v)
    else []
  else []

/-- The vertex set of `G.subgraph(table_names)`: the given names that are
nodes of the graph (networkx ignores names that are not nodes). -/
def inducedSub (g : DiGraph) (tableNames : List String) : List String :=
  (nodeIds g).filter (fun v => tableNames.contains v)

/-- The adjacency of the undirected induced subgraph. -/
def inducedAdj (g : DiGraph) (tableNames : List String) (u v : String) : Bool :=
  undirAdj g u v && (inducedSub g tableNames).contains u &&
    (inducedSub g tableNames).contains v

/-- `NetworkXExplorer.is_subgraph_connected(table_names)`: `False` for an
empty argument; otherwise `nx.is_connected` on the undirected induced
subgraph: every induced vertex must be reachable from the first induced
vertex.  `nx.is_connected` raises on the null graph, modelled by
`Except.error`. -/
def is_subgraph_connected (g : DiGraph) (tableNames : List String) :
    Except Unit Bool :=
  if tableNames = [] then .ok false
  else
    match _hs : inducedSub g tableNames with
    | [] => .error ()
    | s0 :: _ =>
      .ok ((inducedSub g tableNames).all (fun v =>
        (reach (inducedSub g tableNames) (inducedAdj g tableNames) s0
          ((inducedSub g tableNames).length + 1)).contains v))

/-- Well-formedness maintained by networkx `DiGraph`s: node keys are
distinct, and every edge endpoint is a node. -/
def WfGraph (g : DiGraph) : Prop :=
  (nodeIds g).Nodup ∧
    ∀ e ∈ g.edges, hasNode g e.1.1 = true ∧ hasNode g e.1.2 = true

/-- A walk through the boolean adjacency `adj` from `s` to `t`: nonempty,
consecutive vertices adjacent, with the given endpoints. -/
def IsWalk (adj : String → String → Bool) (s t : String) (p : List String) : Prop :=
  p ≠ [] ∧ p.Chain' (fun a b => adj a b = true) ∧ p.head? = some s ∧ p.getLast? = some t

/-! ## `src/graph/convert_repo.py` : `GraphRepoConverter.convert_single` -/

/-- One entry of `nodes.json`: an old identifier, an ordered label list, and
a property map. -/
structure NodeItem where
  old_id : Int
  labels : List String
  properties : Attrs
  deriving DecidableEq, Repr

/-- One entry of `relationships.json`.  `rtype` embeds the JSON field
`type`. -/
structure RelItem where
  start_old_id : Int
  end_old_id : Int
  rtype : String
  properties : Attrs
  deriving DecidableEq, Repr

/-- A property read expected to be a string (`props.get(k)` where the code
uses the value as a node name; a missing key gives `None`, modelled
`none`). -/
def getStrProp (a : Attrs) (k : String) : Option String :=
  match a.lookup k with
  | some (.s v) => some v
  | _ => none

/-- Dict assignment `m[k] = v` on the `old_id_map`. -/
def insertAssoc : List (Int × String) → Int → String → List (Int × String)
  | [], k, v => [(k, v)]
  | (k', v') :: rest, k, v =>
    if k' = k then (k', v) :: rest else (k', v') :: insertAssoc rest k v

/-- The per-node step of `convert_single` (state: the `old_id_map` and the
graph being built).  `"Table" in labels`: the new identifier is
`props.get("name")` — there is no fallback, and a missing or empty name
(falsy in `if node_id:`) drops the node.  `"Column" in labels`: the new
identifier is `"<belongs_to>.<name>"`, falling back to `str(old_id)` when
either naming field is missing or empty.  Other labels: `str(old_id)`.
`type` is written and the reference lists are `setdefault`-initialized as in
the source. -/
def convertNodeStep (st : List (Int × String) × DiGraph) (item : NodeItem) :
    List (Int × String) × DiGraph :=
  let m := st.1
  let g := st.2
  if item.labels.contains "Table" then
    let props := setdefaultKey (setdefaultKey
      (setKey item.properties "type" (.s "Table"))
      "reference_to" (.strList [])) "referenced_by" (.strList [])
    match getStrProp item.properties "name" with
    | some n => if n ≠ "" then (insertAssoc m item.old_id n, addNode g n props)
                else (m, g)
    | none => (m, g)
  else if item.labels.contains "Column" then
    let props := setdefaultKey (setdefaultKey
      (setKey item.properties "type" (.s "Column"))
      "referenced_to" (.strList [])) "referenced_by" (.strList [])
    let nodeId :=
      match getStrProp item.properties "belongs_to", getStrProp item.properties "name" with
      | some t, some c => if t ≠ "" ∧ c ≠ "" then t ++ "." ++ c else toString item.old_id
      | _, _ => toString item.old_id
    (insertAssoc m item.old_id nodeId, addNode g nodeId props)
  else
    let nodeType := item.labels.headD "Unknown"
    let props := setKey item.properties "type" (.s nodeType)
    (insertAssoc m item.old_id (toString item.old_id), addNode g (toString item.old_id) props)

/-- The per-relationship step of `convert_single`: resolve both endpoints
through the `old_id_map`; on success add the edge (`type` plus the
properties), otherwise skip the edge silently. -/
def convertRelStep (m : List (Int × String)) (g : DiGraph) (rel : RelItem) :
    DiGraph :=
  match m.lookup rel.start_old_id, m.lookup rel.end_old_id with
  | some s, some e => addEdge g s e (mergeAttrs [("type", .s rel.rtype)] rel.properties)
  | _, _ => g

/-- `GraphRepoConverter.convert_single(nodes_path, rels_path, ...)` on the
parsed JSON data: process all nodes, then all relationships.  (The
surrounding pickle I/O is out of the model.) -/
def convert_single (nodesData : List NodeItem) (relsData : List RelItem) : DiGraph :=
  let st := nodesData.foldl convertNodeStep ([], DiGraph.empty)
  relsData.foldl (convertRelStep st.1) st.2

/-! ## `graph/sqlite_handler.py` + `graph/pileline.py` : the row-count /
sampling-limit interplay -/

/-- The per-table data `SchemaPipeline.run` draws from `SQLiteHandler`:
`get_row_count` returns the count, or `None` (modelled `none`) when the
row-count query fails. -/
structure DBTableModel where
  row_count : Option Int
  columns : List String
  deriving DecidableEq, Repr

/-- `limit = 100000 if row_count > 100000 else None` under Python-3
semantics: comparing `None` against an `int` raises `TypeError`. -/
def computeLimit (rowCount : Option Int) : Except String (Option Int) :=
  match rowCount with
  | some n => .ok (if n > 100000 then some 100000 else none)
  | none => .error "TypeError"

/-- The per-column loop of `SchemaPipeline.run`, restricted to the limit
computation that precedes `fetch_column_data`: each column evaluates
`computeLimit`, and an exception aborts the loop. -/
def processTableColumns (t : DBTableModel) :
    Except String (List (String × Option Int)) :=
  t.columns.mapM (fun c => (computeLimit t.row_count).map (fun l => (c, l)))

/-- The table loop of `SchemaPipeline.run` (same restriction): an exception
in one table aborts the whole build for the database. -/
def runPipelineTables (tables : List DBTableModel) :
    Except String (List (List (String × Option Int))) :=
  tables.mapM processTableColumns

/-! ## Auxiliary definitions used only by the proofs -/

/-- Association-list lookup with decidable equality (proof-side view of the
`Counter` association lists). -/
def alookup {α : Type} [DecidableEq α] : List (α × Nat) → α → Option Nat
  | [], _ => none
  | (k, n) :: rest, x => if k = x then some n else alookup rest x

/-- The value stored at `(id, key)` is absent or a string list — the states
in which Python's `list.append` in `safe_append` does not raise.  (Every
graph built by the pipeline satisfies this: the reference lists are
pre-initialized as lists.) -/
def ListCompat (g : DiGraph) (id key : String) : Prop :=
  lookupAttr g id key = none ∨ ∃ l, lookupAttr g id key = some (.strList l)

/-- The two-table scenario of the specification before the foreign-key
phase, built exactly as `SchemaPipeline.run` would: `Orders(id PK,
customer_id FK -> Customers.id)`, `Customers(id PK)` — all Table and Column
nodes plus `HAS_COLUMN` edges. -/
def ordersCustomersBase : DiGraph :=
  let g := add_table_node DiGraph.empty "Orders"
    [("row_count", .i 2), ("column_count", .i 2), ("columns", .strList ["id", "customer_id"]),
     ("primary_key", .s "id"), ("foreign_key", .s "customer_id")]
  let g := add_column_node g "Orders" "id" true false [("data_type", .s "INTEGER")]
  let g := add_column_node g "Orders" "customer_id" false true [("data_type", .s "INTEGER")]
  let g := add_table_node g "Customers"
    [("row_count", .i 1), ("column_count", .i 1), ("columns", .strList ["id"]),
     ("primary_key", .s "id")]
  add_column_node g "Customers" "id" true false [("data_type", .s "INTEGER")]

/-- The full two-table scenario graph: the single foreign key added on top
of `ordersCustomersBase`. -/
def ordersCustomersGraph (md5 : String → String) : DiGraph :=
  add_foreign_key md5 ordersCustomersBase "Orders" "customer_id" "Customers" "id"

/-! # Theorems -/

/-! ### Generic list lemmas -/

theorem contains_iff_mem (l : List String) (v : String) :
    l.contains v = true ↔ v ∈ l := by
  simp [List.elem_iff, List.contains]

theorem hasNode_iff_mem_nodeIds (g : DiGraph) (v : String) :
    hasNode g v = true ↔ v ∈ nodeIds g := by
  unfold hasNode findNodeAttrs nodeIds
  induction g.nodes with
  | nil => simp [List.lookup]
  | cons hd tl ih =>
    obtain ⟨k, a⟩ := hd
    by_cases hv : v = k
    · subst hv; simp [List.lookup]
    · have hbeq : (v == k) = false := beq_false_of_ne hv
      simp [List.lookup, hbeq, hv, ih]

/-! ### Word-frequency selection loop (`_get_word_frequency`) -/

theorem selectTop_length_le (k : Nat) :
    ∀ (l res : List (String × Nat)) (cnt : Nat) (fnd : Bool),
      res.length ≤ k → (selectTopWords k l res cnt fnd).length ≤ k := by
  intro l
  induction l with
  | nil => intro res cnt fnd h; simpa [selectTopWords] using h
  | cons hd tl ih =>
    intro res cnt fnd h
    obtain ⟨w, f⟩ := hd
    simp only [selectTopWords]
    split_ifs with h1 h2 h3 h4
    · exact h
    · apply ih
      have hlt : res.length < k := Nat.lt_of_not_le h1
      simpa [List.length_append] using hlt
    · exact ih _ _ _ h
    · exact ih _ _ _ h
    · apply ih
      have hlt : res.length < k := Nat.lt_of_not_le h1
      simpa [List.length_append] using hlt

theorem selectTop_countP_one (k : Nat) :
    ∀ (l res : List (String × Nat)) (cnt : Nat) (fnd : Bool),
      (selectTopWords k l res cnt fnd).countP (fun e => e.2 = 1) ≤
        res.countP (fun e => e.2 = 1) + (3 - cnt) := by
  intro l
  induction l with
  | nil => intro res cnt fnd; simp [selectTopWords]
  | cons hd tl ih =>
    intro res cnt fnd
    obtain ⟨w, f⟩ := hd
    simp only [selectTopWords]
    split_ifs with h1 h2 h3 h4
    · exact Nat.le_add_right _ _
    · calc (selectTopWords k tl (res ++ [(w, f)]) (cnt + 1) true).countP
            (fun e => e.2 = 1)
          ≤ (res ++ [(w, f)]).countP (fun e => e.2 = 1) + (3 - (cnt + 1)) := ih _ _ _
        _ ≤ res.countP (fun e => e.2 = 1) + (3 - cnt) := by
            rw [List.countP_append]
            have : ([(w, f)] : List (String × Nat)).countP (fun e => e.2 = 1) = 1 := by
              simp [List.countP_cons, h2]
            rw [this]
            omega
    · exact ih _ _ _
    · exact ih _ _ _
    · calc (selectTopWords k tl (res ++ [(w, f)]) cnt fnd).countP
            (fun e => e.2 = 1)
          ≤ (res ++ [(w, f)]).countP (fun e => e.2 = 1) + (3 - cnt) := ih _ _ _
        _ = res.countP (fun e => e.2 = 1) + (3 - cnt) := by
            rw [List.countP_append]
            have : ([(w, f)] : List (String × Nat)).countP (fun e => e.2 = 1) = 0 := by
              simp [List.countP_cons, h2]
            rw [this]
            omega

theorem selectTop_one_short (k : Nat) :
    ∀ (l res : List (String × Nat)) (cnt : Nat) (fnd : Bool),
      (∀ e ∈ res, e.2 = 1 → e.1.length ≤ 20) →
      ∀ e ∈ selectTopWords k l res cnt fnd, e.2 = 1 → e.1.length ≤ 20 := by
  intro l
  induction l with
  | nil => intro res cnt fnd h; simpa [selectTopWords] using h
  | cons hd tl ih =>
    intro res cnt fnd h
    obtain ⟨w, f⟩ := hd
    simp only [selectTopWords]
    split_ifs with h1 h2 h3 h4
    · exact h
    · apply ih
      intro e he
      rcases List.mem_append.mp he with he | he
      · exact h e he
      · intro _
        have : e = (w, f) := by simpa using he
        subst this
        exact h3.1
    · exact ih _ _ _ h
    · exact ih _ _ _ h
    · apply ih
      intro e he
      rcases List.mem_append.mp he with he | he
      · exact h e he
      · intro hf
        have : e = (w, f) := by simpa using he
        subst this
        exact absurd hf h2

theorem pySort2_comm (a b : String) : pySort2 a b = pySort2 b a := by
  unfold pySort2
  rcases lt_trichotomy a b with h | h | h
  · rw [if_neg (not_lt.mpr h.le), if_pos h]
  · subst h; rfl
  · rw [if_pos h, if_neg (not_lt.mpr h.le)]

/-- C1: for every md5 primitive and all four strings,
`generate_fk_hash(T1,C1,T2,C2) = generate_fk_hash(T2,C2,T1,C1)`: the hash is
computed over the two qualified endpoint strings sorted lexicographically, so
it is independent of the direction in which the foreign key is given. -/
theorem C1_fk_hash_symmetric (md5 : String → String) (t1 c1 t2 c2 : String) :
    generate_fk_hash md5 t1 c1 t2 c2 = generate_fk_hash md5 t2 c2 t1 c1 := by
  unfold generate_fk_hash
  rw [pySort2_comm]

theorem selectTop_pairwise (k : Nat) :
    ∀ (l res : List (String × Nat)) (cnt : Nat) (fnd : Bool),
      List.Pairwise (fun a b => a.2 = 1 → b.2 = 1) res →
      (fnd = false → ∀ e ∈ res, e.2 ≠ 1) →
      List.Pairwise (fun a b => a.2 = 1 → b.2 = 1)
        (selectTopWords k l res cnt fnd) := by
  intro l
  induction l with
  | nil => intro res cnt fnd h _; simpa [selectTopWords] using h
  | cons hd tl ih =>
    intro res cnt fnd h hnf
    obtain ⟨w, f⟩ := hd
    simp only [selectTopWords]
    split_ifs with h1 h2 h3 h4
    · exact h
    · apply ih
      · rw [List.pairwise_append]
        refine ⟨h, List.pairwise_singleton _ _, ?_⟩
        intro a _ b hb
        have : b = (w, f) := by simpa using hb
        subst this
        intro _
        exact h2
      · intro hff; exact absurd hff (by simp)
    · apply ih _ _ _ h
      intro hff; exact absurd hff (by simp)
    · exact ih _ _ _ h hnf
    · have hres : ∀ e ∈ res, e.2 ≠ 1 := hnf (by simpa using h4)
      apply ih
      · rw [List.pairwise_append]
        refine ⟨h, List.pairwise_singleton _ _, ?_⟩
        intro a ha b hb
        intro ha1
        exact absurd ha1 (hres a ha)
      · intro _
        intro e he
        rcases List.mem_append.mp he with he | he
        · exact hres e he
        · have : e = (w, f) := by simpa using he
          subst this
          exact h2

/-- C3: for every list of text values, the word-frequency table produced by
the profiler has at most 10 entries; at most 3 of its entries have frequency
exactly 1; every frequency-1 entry has word length ≤ 20; and no entry with
frequency > 1 appears after a frequency-1 entry (a frequency > 1 entry is
never admitted once a frequency-1 entry of the descending ranking has been
encountered). -/
theorem C3_word_frequency_bounds (values : List String) :
    (getWordFrequency values).length ≤ 10 ∧
    (getWordFrequency values).countP (fun e => e.2 = 1) ≤ 3 ∧
    (∀ e ∈ getWordFrequency values, e.2 = 1 → e.1.length ≤ 20) ∧
    List.Pairwise (fun a b => a.2 = 1 → b.2 = 1) (getWordFrequency values) := by
  unfold getWordFrequency
  split_ifs with hv
  · simp
  · refine ⟨selectTop_length_le 10 _ _ _ _ (by simp), ?_, ?_, ?_⟩
    · have := selectTop_countP_one 10 (sortDescByCount (counter values)) [] 0 false
      simpa using this
    · exact selectTop_one_short 10 _ _ _ _ (by simp)
    · exact selectTop_pairwise 10 _ _ _ _ (by simp) (by simp)

/-! ### The pipeline's sampling-limit computation (C10) -/

theorem processTableColumns_ok (t : DBTableModel) (n : Int)
    (h : t.row_count = some n) :
    processTableColumns t =
      .ok (t.columns.map (fun c => (c, if n > 100000 then some 100000 else none))) := by
  unfold processTableColumns
  rw [h]
  induction t.columns with
  | nil => rfl
  | cons c cs ih =>
    rw [List.mapM_cons, ih]
    rfl

theorem processTableColumns_error (t : DBTableModel)
    (h : t.row_count = none) (hc : t.columns ≠ []) :
    processTableColumns t = .error "TypeError" := by
  unfold processTableColumns
  rw [h]
  rcases List.exists_cons_of_ne_nil hc with ⟨c, cs, hcc⟩
  rw [hcc]
  rfl

/-- C10: when the row-count query for a table fails (`get_row_count` returns
`None`), the table loop of `SchemaPipeline.run` hits the `TypeError` of the
Python-3 comparison `None > 100000` at that table's first column, aborting
the whole build (tables before it having processed normally), instead of
degrading to a full column scan. -/
theorem C10_null_rowcount_aborts (pre post : List DBTableModel)
    (t : DBTableModel)
    (hpre : ∀ t' ∈ pre, ∃ n, t'.row_count = some n)
    (hrc : t.row_count = none) (hcols : t.columns ≠ []) :
    runPipelineTables (pre ++ t :: post) = .error "TypeError" := by
  unfold runPipelineTables
  induction pre with
  | nil =>
    rw [List.nil_append, List.mapM_cons, processTableColumns_error t hrc hcols]
    rfl
  | cons p ps ih =>
    obtain ⟨n, hn⟩ := hpre p (by simp)
    rw [List.cons_append, List.mapM_cons, processTableColumns_ok p n hn,
      ih (fun t' ht' => hpre t' (by simp [ht']))]
    rfl

theorem C10_null_rowcount_aborts_witness :
    (∀ t' ∈ ([] : List DBTableModel), ∃ n, t'.row_count = some n) ∧
    (DBTableModel.mk none ["col1"]).row_count = none ∧
    (DBTableModel.mk none ["col1"]).columns ≠ [] ∧
    runPipelineTables [DBTableModel.mk none ["col1"]] = .error "TypeError" := by
  refine ⟨by simp, rfl, by simp, ?_⟩
  exact C10_null_rowcount_aborts [] [] (DBTableModel.mk none ["col1"])
    (by simp) rfl (by simp)

/-! ### `is_subgraph_connected` raising on an all-absent name list (C9) -/

/-- C9: `is_subgraph_connected` raises (modelled `Except.error`) **exactly**
when the name list is nonempty and none of its names is a node of the loaded
graph: the empty list short-circuits to `False` before the subgraph is
built, and otherwise `nx.is_connected` is evaluated on the induced subgraph,
which is the null graph — on which `is_connected` raises instead of
returning `False` — precisely when every given name is absent. -/
theorem C9_all_absent_raises (g : DiGraph) (names : List String) :
    is_subgraph_connected g names = .error () ↔
      names ≠ [] ∧ ∀ n ∈ names, hasNode g n = false := by
  constructor
  · intro herr
    by_cases hne : names = []
    · rw [hne] at herr
      cases herr
    · refine ⟨hne, ?_⟩
      unfold is_subgraph_connected at herr
      rw [if_neg hne] at herr
      intro n hn
      cases hc : hasNode g n
      · rfl
      · exfalso
        have hnsub : n ∈ inducedSub g names := by
          unfold inducedSub
          exact List.mem_filter.mpr
            ⟨(hasNode_iff_mem_nodeIds g n).mp hc,
              by simpa using (contains_iff_mem names n).mpr hn⟩
        split at herr
        · rename_i hnil
          rw [hnil] at hnsub
          cases hnsub
        · cases herr
  · rintro ⟨hne, habs⟩
    unfold is_subgraph_connected
    rw [if_neg hne]
    have hsub : inducedSub g names = [] := by
      rw [inducedSub, List.filter_eq_nil_iff]
      intro v hv hcont
      have hvn : v ∈ names := (contains_iff_mem names v).mp (by simpa using hcont)
      have : hasNode g v = true := (hasNode_iff_mem_nodeIds g v).mpr hv
      rw [habs v hvn] at this
      exact absurd this (by simp)
    split
    · rfl
    · rename_i s0 tail hcons
      rw [hsub] at hcons
      cases hcons

theorem C9_all_absent_raises_witness :
    ((["Ghost"] : List String) ≠ [] ∧
      (∀ n ∈ (["Ghost"] : List String), hasNode DiGraph.empty n = false)) ∧
    is_subgraph_connected DiGraph.empty ["Ghost"] = .error () := by
  refine ⟨⟨by simp, by simp [hasNode, findNodeAttrs, DiGraph.empty, List.lookup]⟩, ?_⟩
  exact (C9_all_absent_raises DiGraph.empty ["Ghost"]).mpr
    ⟨by simp, by simp [hasNode, findNodeAttrs, DiGraph.empty, List.lookup]⟩

/-! ### `Counter` correctness (used by `_get_mode`) -/

theorem counterIncr_keys {α : Type} [DecidableEq α] (acc : List (α × Nat)) (v : α) :
    (counterIncr acc v).map Prod.fst =
      if v ∈ acc.map Prod.fst then acc.map Prod.fst
      else acc.map Prod.fst ++ [v] := by
  induction acc with
  | nil => simp [counterIncr]
  | cons hd rest ih =>
    obtain ⟨k, m⟩ := hd
    by_cases hk : k = v
    · subst hk; simp [counterIncr]
    · simp only [counterIncr, if_neg hk, List.map_cons, ih]
      by_cases hv : v ∈ rest.map Prod.fst
      · simp [hv, Ne.symm hk]
      · simp [hv, Ne.symm hk]

theorem counterIncr_keys_nodup {α : Type} [DecidableEq α]
    (acc : List (α × Nat)) (v : α) (h : (acc.map Prod.fst).Nodup) :
    ((counterIncr acc v).map Prod.fst).Nodup := by
  rw [counterIncr_keys]
  split_ifs with hv
  · exact h
  · simp [List.nodup_append, h, hv]

theorem alookup_counterIncr_same {α : Type} [DecidableEq α]
    (acc : List (α × Nat)) (v : α) :
    alookup (counterIncr acc v) v = some ((alookup acc v).getD 0 + 1) := by
  induction acc with
  | nil => simp [counterIncr, alookup]
  | cons hd rest ih =>
    obtain ⟨k, m⟩ := hd
    by_cases hk : k = v
    · subst hk; simp [counterIncr, alookup]
    · simp [counterIncr, alookup, hk, ih]

theorem alookup_counterIncr_other {α : Type} [DecidableEq α]
    (acc : List (α × Nat)) (v x : α) (hx : x ≠ v) :
    alookup (counterIncr acc v) x = alookup acc x := by
  induction acc with
  | nil => simp [counterIncr, alookup, Ne.symm hx]
  | cons hd rest ih =>
    obtain ⟨k, m⟩ := hd
    by_cases hk : k = v
    · subst hk
      simp [counterIncr, alookup, Ne.symm hx]
    · simp only [counterIncr, if_neg hk, alookup, ih]

theorem counter_append_singleton {α : Type} [DecidableEq α] (vs : List α) (v : α) :
    counter (vs ++ [v]) = counterIncr (counter vs) v := by
  simp [counter, List.foldl_append]

theorem alookup_counter {α : Type} [DecidableEq α] (vs : List α) (x : α) :
    alookup (counter vs) x = if x ∈ vs then some (vs.count x) else none := by
  induction vs using List.reverseRecOn with
  | nil => simp [counter, alookup]
  | append_singleton vs v ih =>
    rw [counter_append_singleton]
    by_cases hx : x = v
    · subst hx
      rw [alookup_counterIncr_same, ih]
      by_cases hmem : x ∈ vs
      · simp [hmem, List.count_append]
      · simp [hmem, List.count_append, List.count_eq_zero_of_not_mem hmem]
    · rw [alookup_counterIncr_other _ _ _ hx, ih]
      have hcnt : (vs ++ [v]).count x = vs.count x := by
        simp [List.count_append, List.count_singleton', Ne.symm hx]
      simp [List.mem_append, hx, hcnt]

theorem mem_iff_alookup {α : Type} [DecidableEq α] (l : List (α × Nat))
    (hnd : (l.map Prod.fst).Nodup) (x : α) (n : Nat) :
    (x, n) ∈ l ↔ alookup l x = some n := by
  induction l with
  | nil => simp [alookup]
  | cons hd rest ih =>
    obtain ⟨k, m⟩ := hd
    rw [List.map_cons, List.nodup_cons] at hnd
    by_cases hk : k = x
    · subst hk
      constructor
      · intro h
        rcases List.mem_cons.mp h with h | h
        · simp only [Prod.mk.injEq, true_and] at h
          simp [alookup, h]
        · exact absurd (List.mem_map_of_mem Prod.fst h) hnd.1
      · intro h
        have hmn : m = n := by simpa [alookup] using h
        exact List.mem_cons.mpr (Or.inl (by rw [hmn]))
    · simp only [List.mem_cons, alookup, if_neg hk, ih hnd.2]
      constructor
      · rintro (h | h)
        · simp only [Prod.mk.injEq] at h
          exact absurd h.1.symm hk
        · exact h
      · intro h
        exact Or.inr h

theorem counter_keys_nodup {α : Type} [DecidableEq α] (vs : List α) :
    ((counter vs).map Prod.fst).Nodup := by
  induction vs using List.reverseRecOn with
  | nil => simp [counter]
  | append_singleton vs v ih =>
    rw [counter_append_singleton]
    exact counterIncr_keys_nodup _ _ ih

theorem mem_counter {α : Type} [DecidableEq α] (vs : List α) (x : α) (n : Nat) :
    (x, n) ∈ counter vs ↔ x ∈ vs ∧ n = vs.count x := by
  rw [mem_iff_alookup _ (counter_keys_nodup vs), alookup_counter]
  split_ifs with hmem
  · simp [hmem, eq_comm]
  · simp [hmem]

/-! ### The maximal frequency -/

theorem le_foldlMax {α : Type} (l : List (α × Nat)) (a : Nat) :
    a ≤ l.foldl (fun m e => max m e.2) a := by
  induction l generalizing a with
  | nil => exact le_refl a
  | cons hd rest ih => exact le_trans (le_max_left a hd.2) (ih (max a hd.2))

theorem mem_le_foldlMax {α : Type} (l : List (α × Nat)) (a : Nat)
    (e : α × Nat) (he : e ∈ l) : e.2 ≤ l.foldl (fun m e => max m e.2) a := by
  induction l generalizing a with
  | nil => cases he
  | cons hd rest ih =>
    rcases List.mem_cons.mp he with h | h
    · subst h
      exact le_trans (le_max_right a e.2) (le_foldlMax rest (max a e.2))
    · exact ih (max a hd.2) h

theorem foldlMax_cases {α : Type} (l : List (α × Nat)) (a : Nat) :
    l.foldl (fun m e => max m e.2) a = a ∨
      ∃ e ∈ l, l.foldl (fun m e => max m e.2) a = e.2 := by
  induction l generalizing a with
  | nil => exact Or.inl rfl
  | cons hd rest ih =>
    rcases ih (max a hd.2) with h | ⟨e, he, h⟩
    · rcases max_choice a hd.2 with hm | hm
      · exact Or.inl (by rw [List.foldl_cons, h, hm])
      · exact Or.inr ⟨hd, List.mem_cons_self _ _, by rw [List.foldl_cons, h, hm]⟩
    · exact Or.inr ⟨e, List.mem_cons_of_mem _ he, by rw [List.foldl_cons, h]⟩

theorem count_le_maxCount (vs : List Int) (x : Int) :
    vs.count x ≤ maxCount (counter vs) := by
  by_cases hx : x ∈ vs
  · exact mem_le_foldlMax _ 0 _ ((mem_counter vs x _).mpr ⟨hx, rfl⟩)
  · simp [List.count_eq_zero_of_not_mem hx]

theorem maxCount_attained (vs : List Int) (h : vs ≠ []) :
    ∃ x ∈ vs, vs.count x = maxCount (counter vs) := by
  rcases foldlMax_cases (counter vs) 0 with hc | ⟨e, he, hc⟩
  · obtain ⟨y, hy⟩ := List.exists_mem_of_ne_nil vs h
    have h1 : 0 < vs.count y := List.count_pos_iff.mpr hy
    have h2 := count_le_maxCount vs y
    have hc' : maxCount (counter vs) = 0 := hc
    omega
  · obtain ⟨hx, hcx⟩ := (mem_counter vs e.1 e.2).mp (by simpa using he)
    have hc' : maxCount (counter vs) = e.2 := hc
    exact ⟨e.1, hx, by rw [hc', hcx]⟩


/-! ### `_get_mode` characterization -/

theorem getMode_eq_nil_iff (vs : List Int) :
    getMode vs = [] ↔ ∀ x, vs.count x ≤ 1 := by
  simp only [getMode]
  split_ifs with h0 h1
  · subst h0
    simp
  · have : ∀ x, vs.count x ≤ 1 :=
      fun x => le_trans (count_le_maxCount vs x) h1
    simp [this]
  · obtain ⟨x0, hx0, hc0⟩ := maxCount_attained vs h0
    apply iff_of_false
    · intro hmap
      have hmem : (x0, maxCount (counter vs)) ∈ counter vs :=
        (mem_counter vs x0 _).mpr ⟨hx0, hc0.symm⟩
      have hfil : (x0, maxCount (counter vs)) ∈
          (counter vs).filter (fun e => e.2 = maxCount (counter vs)) :=
        List.mem_filter.mpr ⟨hmem, by simp⟩
      have : x0 ∈ ((counter vs).filter
          (fun e => e.2 = maxCount (counter vs))).map Prod.fst :=
        List.mem_map_of_mem Prod.fst hfil
      rw [hmap] at this
      cases this
    · intro hall
      have := hall x0
      rw [hc0] at this
      omega

theorem getMode_mem_iff (vs : List Int) (x : Int) :
    x ∈ getMode vs ↔ 2 ≤ vs.count x ∧ ∀ y, vs.count y ≤ vs.count x := by
  simp only [getMode]
  split_ifs with h0 h1
  · subst h0
    simp
  · apply iff_of_false (by simp)
    rintro ⟨h2, -⟩
    have := le_trans (count_le_maxCount vs x) h1
    omega
  · constructor
    · intro hx
      obtain ⟨e, hef, hex⟩ := List.mem_map.mp hx
      obtain ⟨hec, hemx⟩ := List.mem_filter.mp hef
      have hemx : e.2 = maxCount (counter vs) := by simpa using hemx
      obtain ⟨hev, hcnt⟩ := (mem_counter vs e.1 e.2).mp (by simpa using hec)
      subst hex
      constructor
      · rw [← hcnt, hemx]
        omega
      · intro y
        rw [← hcnt, hemx]
        exact count_le_maxCount vs y
    · rintro ⟨h2, hall⟩
      have hxv : x ∈ vs := List.count_pos_iff.mp (by omega)
      have hcmx : vs.count x = maxCount (counter vs) := by
        obtain ⟨x0, hx0, hc0⟩ := maxCount_attained vs h0
        have h1 := count_le_maxCount vs x
        have h2' := hall x0
        omega
      apply List.mem_map.mpr
      refine ⟨(x, vs.count x), List.mem_filter.mpr ⟨(mem_counter vs x _).mpr ⟨hxv, rfl⟩, by simp [hcmx]⟩, rfl⟩

/-! ### `min?` / `max?` bounds -/

theorem foldlMin_le_init (xs : List Int) (x : Int) : xs.foldl min x ≤ x := by
  induction xs generalizing x with
  | nil => exact le_refl x
  | cons y ys ih => exact le_trans (ih (min x y)) (min_le_left x y)

theorem foldlMin_le_mem (xs : List Int) (x b : Int) (hb : b ∈ xs) :
    xs.foldl min x ≤ b := by
  induction xs generalizing x with
  | nil => cases hb
  | cons y ys ih =>
    rcases List.mem_cons.mp hb with h | h
    · subst h
      exact le_trans (foldlMin_le_init ys (min x b)) (min_le_right x b)
    · exact ih (min x y) h

theorem foldlMin_mem (xs : List Int) (x : Int) :
    xs.foldl min x = x ∨ xs.foldl min x ∈ xs := by
  induction xs generalizing x with
  | nil => exact Or.inl rfl
  | cons y ys ih =>
    rcases ih (min x y) with h | h
    · rcases min_choice x y with hm | hm
      · exact Or.inl (by rw [List.foldl_cons, h, hm])
      · exact Or.inr (List.mem_cons.mpr (Or.inl (by rw [List.foldl_cons, h, hm])))
    · exact Or.inr (List.mem_cons.mpr (Or.inr h))

theorem foldlMax_le_init (xs : List Int) (x : Int) : x ≤ xs.foldl max x := by
  induction xs generalizing x with
  | nil => exact le_refl x
  | cons y ys ih => exact le_trans (le_max_left x y) (ih (max x y))

theorem foldlMax_le_mem (xs : List Int) (x b : Int) (hb : b ∈ xs) :
    b ≤ xs.foldl max x := by
  induction xs generalizing x with
  | nil => cases hb
  | cons y ys ih =>
    rcases List.mem_cons.mp hb with h | h
    · subst h
      exact le_trans (le_max_right x b) (foldlMax_le_init ys (max x b))
    · exact ih (max x y) h

theorem foldlMax_mem (xs : List Int) (x : Int) :
    xs.foldl max x = x ∨ xs.foldl max x ∈ xs := by
  induction xs generalizing x with
  | nil => exact Or.inl rfl
  | cons y ys ih =>
    rcases ih (max x y) with h | h
    · rcases max_choice x y with hm | hm
      · exact Or.inl (by rw [List.foldl_cons, h, hm])
      · exact Or.inr (List.mem_cons.mpr (Or.inl (by rw [List.foldl_cons, h, hm])))
    · exact Or.inr (List.mem_cons.mpr (Or.inr h))

theorem min?_spec (l : List Int) (a : Int) (h : l.min? = some a) :
    a ∈ l ∧ ∀ b ∈ l, a ≤ b := by
  cases l with
  | nil => cases h
  | cons x xs =>
    have ha : a = xs.foldl min x := by
      have : (x :: xs).min? = some (xs.foldl min x) := rfl
      rw [this] at h
      exact (Option.some.injEq _ _ ▸ h).symm
    subst ha
    constructor
    · rcases foldlMin_mem xs x with h' | h'
      · rw [h']; exact List.mem_cons_self _ _
      · exact List.mem_cons.mpr (Or.inr h')
    · intro b hb
      rcases List.mem_cons.mp hb with h' | h'
      · subst h'; exact foldlMin_le_init xs b
      · exact foldlMin_le_mem xs x b h'

theorem max?_spec (l : List Int) (a : Int) (h : l.max? = some a) :
    a ∈ l ∧ ∀ b ∈ l, b ≤ a := by
  cases l with
  | nil => cases h
  | cons x xs =>
    have ha : a = xs.foldl max x := by
      have : (x :: xs).max? = some (xs.foldl max x) := rfl
      rw [this] at h
      exact (Option.some.injEq _ _ ▸ h).symm
    subst ha
    constructor
    · rcases foldlMax_mem xs x with h' | h'
      · rw [h']; exact List.mem_cons_self _ _
      · exact List.mem_cons.mpr (Or.inr h')
    · intro b hb
      rcases List.mem_cons.mp hb with h' | h'
      · subst h'; exact foldlMax_le_init xs b
      · exact foldlMax_le_mem xs x b h'

/-! ### The numeric-profile claim -/

/-- C4: profiling a numeric column.  When the column name contains `"id"`
(case-insensitive), `numeric_mode` and `numeric_mean` are omitted while
`numeric_range` is still `[min, max]` of the valid values — in particular
`user_id` with values `[1,2,2,3]` yields no mode and range `[1,3]`.
Otherwise `numeric_mode` is the set of values tied for highest frequency,
omitted entirely when the maximal frequency is 1, and `numeric_mean` is the
arithmetic mean — in particular `score` with values `[1,2,2,3]` yields mode
`[2]` and mean `2.0`. -/
theorem C4_numeric_profile :
    (∀ (vs : List Int) (dt name : String), isIdColumn name = true →
      (analyzeNumeric vs dt name).numeric_mode = none ∧
      (analyzeNumeric vs dt name).numeric_mean = none ∧
      (vs = [] → (analyzeNumeric vs dt name).numeric_range = none) ∧
      (vs ≠ [] → (analyzeNumeric vs dt name).numeric_range ≠ none) ∧
      (∀ a b, (analyzeNumeric vs dt name).numeric_range = some (a, b) →
        a ∈ vs ∧ b ∈ vs ∧ ∀ x ∈ vs, a ≤ x ∧ x ≤ b)) ∧
    (∀ (vs : List Int) (dt name : String), isIdColumn name = false →
      ((analyzeNumeric vs dt name).numeric_mode = none ↔ ∀ x, vs.count x ≤ 1) ∧
      (∀ m, (analyzeNumeric vs dt name).numeric_mode = some m →
        ∀ x, x ∈ m ↔ 2 ≤ vs.count x ∧ ∀ y, vs.count y ≤ vs.count x) ∧
      (vs ≠ [] →
        (analyzeNumeric vs dt name).numeric_mean = some (some (meanRat vs)))) ∧
    analyzeNumeric [1, 2, 2, 3] "INTEGER" "user_id" =
      ⟨some (1, 3), none, none⟩ ∧
    analyzeNumeric [1, 2, 2, 3] "INTEGER" "score" =
      ⟨some (1, 3), some [2], some (some 2)⟩ := by
  have hrange : ∀ (vs : List Int) (dt name : String),
      (vs = [] → (analyzeNumeric vs dt name).numeric_range = none) ∧
      (vs ≠ [] → (analyzeNumeric vs dt name).numeric_range ≠ none) ∧
      (∀ a b, (analyzeNumeric vs dt name).numeric_range = some (a, b) →
        a ∈ vs ∧ b ∈ vs ∧ ∀ x ∈ vs, a ≤ x ∧ x ≤ b) := by
    intro vs dt name
    have hr : (analyzeNumeric vs dt name).numeric_range =
        match vs.min?, vs.max? with
        | some a, some b => some (a, b)
        | _, _ => none := by
      simp only [analyzeNumeric]
      split_ifs <;> rfl
    refine ⟨?_, ?_, ?_⟩
    · intro h0
      subst h0
      rw [hr]
      rfl
    · intro h0
      rw [hr]
      rcases List.exists_cons_of_ne_nil h0 with ⟨y, ys, hcons⟩
      subst hcons
      have hmin : (y :: ys).min? = some (ys.foldl min y) := rfl
      have hmax : (y :: ys).max? = some (ys.foldl max y) := rfl
      rw [hmin, hmax]
      simp
    · intro a b hab
      rw [hr] at hab
      cases hmin : vs.min? with
      | none => rw [hmin] at hab; cases hab
      | some a' =>
        cases hmax : vs.max? with
        | none => rw [hmin, hmax] at hab; cases hab
        | some b' =>
          rw [hmin, hmax] at hab
          obtain ⟨ha, hb⟩ : a' = a ∧ b' = b := by
            simpa [Prod.ext_iff] using hab
          rw [← ha, ← hb]
          obtain ⟨hamem, halow⟩ := min?_spec vs a' hmin
          obtain ⟨hbmem, hbhigh⟩ := max?_spec vs b' hmax
          exact ⟨hamem, hbmem, fun x hx => ⟨halow x hx, hbhigh x hx⟩⟩
  refine ⟨?_, ?_, ?_, ?_⟩
  · intro vs dt name hid
    have h1 : (analyzeNumeric vs dt name).numeric_mode = none := by
      simp [analyzeNumeric, hid]
    have h2 : (analyzeNumeric vs dt name).numeric_mean = none := by
      simp [analyzeNumeric, hid]
    obtain ⟨ha, hb, hc⟩ := hrange vs dt name
    exact ⟨h1, h2, ha, hb, hc⟩
  · intro vs dt name hid
    have hmode : (analyzeNumeric vs dt name).numeric_mode =
        if getMode vs = [] then none else some (getMode vs) := by
      simp [analyzeNumeric, hid]
    refine ⟨?_, ?_, ?_⟩
    · rw [hmode]
      split_ifs with hm
      · simpa using (getMode_eq_nil_iff vs).mp hm
      · apply iff_of_false (by simp)
        intro hall
        exact hm ((getMode_eq_nil_iff vs).mpr hall)
    · intro m hm
      rw [hmode] at hm
      split_ifs at hm with hnil
      obtain rfl : getMode vs = m := by simpa using hm
      exact fun x => getMode_mem_iff vs x
    · intro h0
      simp only [analyzeNumeric, hid, Bool.false_eq_true, if_false]
      simp only [if_neg h0]
      split_ifs <;> rfl
  · have hid : isIdColumn "user_id" = true := by decide
    simp only [analyzeNumeric, hid, if_true]
    decide
  · have hid : isIdColumn "score" = false := by decide
    simp only [analyzeNumeric, hid, Bool.false_eq_true, if_false,
      NumericAttrs.mk.injEq]
    refine ⟨by decide, by decide, ?_⟩
    have h1 : ¬([1, 2, 2, 3] : List Int) = [] := by decide
    rw [if_neg h1]
    have h2 : ¬("INTEGER" = "DECIMAL" ∨ "INTEGER" = "NUMERIC") := by decide
    rw [if_neg h2]
    have h3 : ¬"INTEGER" = "BOOLEAN" := by decide
    rw [if_neg h3]
    have hm : meanRat [1, 2, 2, 3] = 2 := by norm_num [meanRat]
    rw [hm]

theorem C4_numeric_profile_witness :
    isIdColumn "user_id" = true ∧
    (analyzeNumeric [1, 2, 2, 3] "INTEGER" "user_id").numeric_mode = none ∧
    isIdColumn "score" = false ∧
    ((analyzeNumeric [1, 2, 2, 3] "INTEGER" "score").numeric_mode = none ↔
      ∀ x, ([1, 2, 2, 3] : List Int).count x ≤ 1) := by
  refine ⟨by decide,
    (C4_numeric_profile.1 [1, 2, 2, 3] "INTEGER" "user_id" (by decide)).1,
    by decide,
    (C4_numeric_profile.2.1 [1, 2, 2, 3] "INTEGER" "score" (by decide)).1⟩

/-! ### Dictionary and graph-update lemmas (for `add_foreign_key` and the
interchange importer) -/

theorem lookup_setKey_same (a : Attrs) (k : String) (v : PVal) :
    (setKey a k v).lookup k = some v := by
  induction a with
  | nil => simp [setKey, List.lookup]
  | cons hd rest ih =>
    obtain ⟨k', v'⟩ := hd
    by_cases hk : k' = k
    · subst hk; simp [setKey, List.lookup]
    · have hbeq : (k == k') = false := beq_false_of_ne (Ne.symm hk)
      simp [setKey, hk, List.lookup, hbeq, ih]

theorem lookup_setKey_other (a : Attrs) (k : String) (v : PVal) (k' : String)
    (h : k' ≠ k) : (setKey a k v).lookup k' = a.lookup k' := by
  induction a with
  | nil =>
    have hbeq : (k' == k) = false := beq_false_of_ne h
    simp [setKey, List.lookup, hbeq]
  | cons hd rest ih =>
    obtain ⟨k0, v0⟩ := hd
    by_cases hk : k0 = k
    · subst hk
      have hbeq : (k' == k0) = false := beq_false_of_ne h
      simp [setKey, List.lookup, hbeq]
    · by_cases hk' : k0 = k'
      · subst hk'
        simp [setKey, hk, List.lookup]
      · have hbeq : (k' == k0) = false := beq_false_of_ne (Ne.symm hk')
        simp [setKey, hk, List.lookup, hbeq, ih]

theorem nodeIds_updateNodeAttrs (g : DiGraph) (id : String) (f : Attrs → Attrs) :
    nodeIds (updateNodeAttrs g id f) = nodeIds g := by
  simp only [nodeIds, updateNodeAttrs]
  induction g.nodes with
  | nil => rfl
  | cons hd rest ih =>
    obtain ⟨k, a⟩ := hd
    by_cases hk : k = id <;> simp [updateEntries, hk, ih]

theorem findNodeAttrs_updateNodeAttrs_same (g : DiGraph) (id : String)
    (f : Attrs → Attrs) :
    findNodeAttrs (updateNodeAttrs g id f) id = (findNodeAttrs g id).map f := by
  unfold findNodeAttrs updateNodeAttrs
  induction g.nodes with
  | nil => simp [updateEntries, List.lookup]
  | cons hd rest ih =>
    obtain ⟨k, a⟩ := hd
    by_cases hk : k = id
    · subst hk; simp [updateEntries, List.lookup]
    · have hbeq : (id == k) = false := beq_false_of_ne (Ne.symm hk)
      simp [updateEntries, List.lookup, hk, hbeq, ih]

theorem findNodeAttrs_updateNodeAttrs_other (g : DiGraph) (id : String)
    (f : Attrs → Attrs) (id' : String) (h : id' ≠ id) :
    findNodeAttrs (updateNodeAttrs g id f) id' = findNodeAttrs g id' := by
  unfold findNodeAttrs updateNodeAttrs
  induction g.nodes with
  | nil => simp [updateEntries]
  | cons hd rest ih =>
    obtain ⟨k, a⟩ := hd
    by_cases hk : k = id
    · subst hk
      have hbeq : (id' == k) = false := beq_false_of_ne h
      simp [updateEntries, List.lookup, hbeq, ih]
    · by_cases hk' : k = id'
      · subst hk'
        simp [updateEntries, List.lookup, hk]
      · have hbeq : (id' == k) = false := beq_false_of_ne (Ne.symm hk')
        simp [updateEntries, List.lookup, hk, hbeq, ih]

theorem hasNode_updateNodeAttrs (g : DiGraph) (id : String) (f : Attrs → Attrs)
    (id' : String) :
    hasNode (updateNodeAttrs g id f) id' = hasNode g id' := by
  unfold hasNode
  by_cases h : id' = id
  · subst h
    rw [findNodeAttrs_updateNodeAttrs_same]
    cases findNodeAttrs g id' <;> rfl
  · rw [findNodeAttrs_updateNodeAttrs_other _ _ _ _ h]

theorem lookup_append_of_isSome {β : Type} (l l' : List (String × β))
    (k : String) (h : (l.lookup k).isSome) :
    (l ++ l').lookup k = l.lookup k := by
  induction l with
  | nil => simp [List.lookup] at h
  | cons hd rest ih =>
    obtain ⟨k0, b⟩ := hd
    by_cases hk : k = k0
    · subst hk
      simp [List.lookup]
    · have hbeq : (k == k0) = false := beq_false_of_ne hk
      simp only [List.lookup, hbeq] at h ⊢
      exact ih h

theorem findNodeAttrs_ensureNode (g : DiGraph) (id id' : String)
    (h : hasNode g id' = true) :
    findNodeAttrs (ensureNode g id) id' = findNodeAttrs g id' := by
  unfold ensureNode
  split_ifs with hg
  · rfl
  · unfold findNodeAttrs hasNode at *
    exact lookup_append_of_isSome _ _ _ h

theorem hasNode_ensureNode_of (g : DiGraph) (id id' : String)
    (h : hasNode g id' = true) : hasNode (ensureNode g id) id' = true := by
  unfold hasNode
  rw [findNodeAttrs_ensureNode g id id' h]
  exact h

theorem lookupAttr_addEdge (g : DiGraph) (u v : String) (attrs : Attrs)
    (id key : String) (h : hasNode g id = true) :
    lookupAttr (addEdge g u v attrs) id key = lookupAttr g id key := by
  have h1 : findNodeAttrs (ensureNode g u) id = findNodeAttrs g id :=
    findNodeAttrs_ensureNode g u id h
  have h1' : hasNode (ensureNode g u) id = true := hasNode_ensureNode_of g u id h
  have h2 : findNodeAttrs (ensureNode (ensureNode g u) v) id = findNodeAttrs g id := by
    rw [findNodeAttrs_ensureNode _ _ _ h1', h1]
  simp only [addEdge]
  split_ifs with he
  · simp only [lookupAttr, findNodeAttrs] at h2 ⊢
    rw [h2]
  · simp only [lookupAttr, findNodeAttrs] at h2 ⊢
    rw [h2]

theorem hasNode_addEdge_of (g : DiGraph) (u v : String) (attrs : Attrs)
    (id : String) (h : hasNode g id = true) :
    hasNode (addEdge g u v attrs) id = true := by
  have h1' : hasNode (ensureNode g u) id = true := hasNode_ensureNode_of g u id h
  have h2' : hasNode (ensureNode (ensureNode g u) v) id = true :=
    hasNode_ensureNode_of _ v id h1'
  simp only [addEdge]
  split_ifs with he
  · simp only [hasNode, findNodeAttrs] at h2' ⊢
    exact h2'
  · simp only [hasNode, findNodeAttrs] at h2' ⊢
    exact h2'

theorem hasNode_safeAppend (g : DiGraph) (id key v id' : String) :
    hasNode (safeAppend g id key v) id' = hasNode g id' := by
  unfold safeAppend
  by_cases hn : hasNode g id = true
  · rw [if_pos hn]
    cases hl : lookupAttr g id key with
    | none => rw [hasNode_updateNodeAttrs]
    | some pv => cases pv <;> first | rw [hasNode_updateNodeAttrs] | rfl
  · rw [if_neg hn]

theorem lookupAttr_safeAppend_other (g : DiGraph) (id key v id' key' : String)
    (h : id' ≠ id ∨ key' ≠ key) :
    lookupAttr (safeAppend g id key v) id' key' = lookupAttr g id' key' := by
  have hupd : ∀ x : PVal,
      lookupAttr (updateNodeAttrs g id (fun a => setKey a key x)) id' key' =
        lookupAttr g id' key' := by
    intro x
    by_cases hid : id' = id
    · subst hid
      rcases h with h | h
      · exact absurd rfl h
      · unfold lookupAttr
        rw [findNodeAttrs_updateNodeAttrs_same]
        cases hfa : findNodeAttrs g id' with
        | none => rfl
        | some a => simp [lookup_setKey_other _ _ _ _ h]
    · unfold lookupAttr
      rw [findNodeAttrs_updateNodeAttrs_other _ _ _ _ hid]
  unfold safeAppend
  by_cases hn : hasNode g id = true
  · rw [if_pos hn]
    cases hl : lookupAttr g id key with
    | none => exact hupd _
    | some pv => cases pv <;> first | exact hupd _ | rfl
  · rw [if_neg hn]

theorem lookupAttr_safeAppend_same (g : DiGraph) (id key v : String)
    (hn : hasNode g id = true) (hc : ListCompat g id key) :
    lookupAttr (safeAppend g id key v) id key =
      some (.strList (refList g id key ++ [v])) := by
  obtain ⟨a, hfa⟩ : ∃ a, findNodeAttrs g id = some a := by
    unfold hasNode at hn
    exact Option.isSome_iff_exists.mp hn
  have hupd : ∀ x : PVal,
      lookupAttr (updateNodeAttrs g id (fun a => setKey a key x)) id key =
        some x := by
    intro x
    unfold lookupAttr
    rw [findNodeAttrs_updateNodeAttrs_same, hfa]
    simp [lookup_setKey_same]
  unfold safeAppend
  rw [if_pos hn]
  rcases hc with hc | ⟨l, hc⟩
  · rw [hc]
    rw [hupd]
    unfold refList
    rw [hc]
    rfl
  · rw [hc]
    rw [hupd]
    unfold refList
    rw [hc]


theorem refList_safeAppend_same (g : DiGraph) (id key v : String)
    (hn : hasNode g id = true) (hc : ListCompat g id key) :
    refList (safeAppend g id key v) id key = refList g id key ++ [v] := by
  unfold refList
  rw [lookupAttr_safeAppend_same g id key v hn hc]
  rfl

theorem refList_safeAppend_other (g : DiGraph) (id key v id' key' : String)
    (h : id' ≠ id ∨ key' ≠ key) :
    refList (safeAppend g id key v) id' key' = refList g id' key' := by
  unfold refList
  rw [lookupAttr_safeAppend_other g id key v id' key' h]

theorem ListCompat_safeAppend_other (g : DiGraph) (id key v id' key' : String)
    (h : id' ≠ id ∨ key' ≠ key) (hc : ListCompat g id' key') :
    ListCompat (safeAppend g id key v) id' key' := by
  unfold ListCompat
  rw [lookupAttr_safeAppend_other g id key v id' key' h]
  exact hc

theorem ListCompat_addEdge (g : DiGraph) (u v : String) (attrs : Attrs)
    (id key : String) (h : hasNode g id = true) (hc : ListCompat g id key) :
    ListCompat (addEdge g u v attrs) id key := by
  unfold ListCompat
  rw [lookupAttr_addEdge g u v attrs id key h]
  exact hc

theorem refList_addEdge (g : DiGraph) (u v : String) (attrs : Attrs)
    (id key : String) (h : hasNode g id = true) :
    refList (addEdge g u v attrs) id key = refList g id key := by
  unfold refList
  rw [lookupAttr_addEdge g u v attrs id key h]

theorem ne_self_append_dot (t c : String) : t ≠ t ++ "." ++ c := by
  intro h
  have hl : t.length = (t ++ "." ++ c).length := by rw [← h]
  rw [String.length_append, String.length_append] at hl
  have hdot : ("." : String).length = 1 := rfl
  omega

/-- C2 (amended): `add_foreign_key` appends exactly one entry to each of the
four reference lists provided the four nodes involved all exist (as they do
in pipeline-built graphs, where nodes are created before the foreign-key
phase, but not in general — see the counterexample) and their stored list
attributes are list-valued; and on the two-table scenario
`Orders(id PK, customer_id FK -> Customers.id)`, `Customers(id PK)`, the
built graph has exactly one FOREIGN_KEY edge `Orders -> Customers`,
`Orders.referenced_by = []`,
`Orders.reference_to = ["Orders.customer_id=Customers.id"]`, and
`Customers.referenced_by = ["Orders.customer_id=Customers.id"]`. -/
theorem C2_fk_list_updates :
    (∀ (md5 : String → String) (g : DiGraph) (ft fc tt tc : String),
      hasNode g ft = true → hasNode g tt = true →
      hasNode g (ft ++ "." ++ fc) = true → hasNode g (tt ++ "." ++ tc) = true →
      ListCompat g tt "referenced_by" → ListCompat g ft "reference_to" →
      ListCompat g (ft ++ "." ++ fc) "referenced_to" →
      ListCompat g (tt ++ "." ++ tc) "referenced_by" →
      (refList (add_foreign_key md5 g ft fc tt tc) tt "referenced_by" =
        refList g tt "referenced_by" ++ [ft ++ "." ++ fc ++ "=" ++ tt ++ "." ++ tc] ∧
       refList (add_foreign_key md5 g ft fc tt tc) ft "reference_to" =
        refList g ft "reference_to" ++ [ft ++ "." ++ fc ++ "=" ++ tt ++ "." ++ tc] ∧
       refList (add_foreign_key md5 g ft fc tt tc) (ft ++ "." ++ fc) "referenced_to" =
        refList g (ft ++ "." ++ fc) "referenced_to" ++ [tt ++ "." ++ tc] ∧
       refList (add_foreign_key md5 g ft fc tt tc) (tt ++ "." ++ tc) "referenced_by" =
        refList g (tt ++ "." ++ tc) "referenced_by" ++ [ft ++ "." ++ fc])) ∧
    (∀ md5 : String → String,
      fkEdgeEndpoints (ordersCustomersGraph md5) = [("Orders", "Customers")] ∧
      refList (ordersCustomersGraph md5) "Orders" "referenced_by" = [] ∧
      refList (ordersCustomersGraph md5) "Orders" "reference_to" =
        ["Orders.customer_id=Customers.id"] ∧
      refList (ordersCustomersGraph md5) "Customers" "referenced_by" =
        ["Orders.customer_id=Customers.id"]) := by
  constructor
  · intro md5 g ft fc tt tc hft htt hfc htc cA cB cC cD
    have httne : tt ≠ tt ++ "." ++ tc := ne_self_append_dot tt tc
    simp only [add_foreign_key]
    set eattrs : Attrs :=
      [("type", .s "FOREIGN_KEY"),
       ("from_table", .s ft), ("from_column", .s fc),
       ("to_table", .s tt), ("to_column", .s tc),
       ("reference_path", .s (ft ++ "." ++ fc ++ "=" ++ tt ++ "." ++ tc)),
       ("fk_hash", .s (generate_fk_hash md5 ft fc tt tc))] with heattrs
    set gE := addEdge g ft tt eattrs with hgE
    set p := ft ++ "." ++ fc ++ "=" ++ tt ++ "." ++ tc with hpdef
    set gA := safeAppend gE tt "referenced_by" p with hgA
    set gB := safeAppend gA ft "reference_to" p with hgB
    set gC := safeAppend gB (ft ++ "." ++ fc) "referenced_to" (tt ++ "." ++ tc) with hgC
    set gD := safeAppend gC (tt ++ "." ++ tc) "referenced_by" (ft ++ "." ++ fc) with hgD
    -- node existence is preserved by every step
    have hftE : hasNode gE ft = true := hasNode_addEdge_of g ft tt eattrs ft hft
    have httE : hasNode gE tt = true := hasNode_addEdge_of g ft tt eattrs tt htt
    have hfcE : hasNode gE (ft ++ "." ++ fc) = true := hasNode_addEdge_of g ft tt eattrs _ hfc
    have htcE : hasNode gE (tt ++ "." ++ tc) = true := hasNode_addEdge_of g ft tt eattrs _ htc
    have hftA : hasNode gA ft = true := by rw [hgA, hasNode_safeAppend]; exact hftE
    have hfcA : hasNode gA (ft ++ "." ++ fc) = true := by
      rw [hgA, hasNode_safeAppend]; exact hfcE
    have htcA : hasNode gA (tt ++ "." ++ tc) = true := by
      rw [hgA, hasNode_safeAppend]; exact htcE
    have hfcB : hasNode gB (ft ++ "." ++ fc) = true := by
      rw [hgB, hasNode_safeAppend]; exact hfcA
    have htcB : hasNode gB (tt ++ "." ++ tc) = true := by
      rw [hgB, hasNode_safeAppend]; exact htcA
    have htcC : hasNode gC (tt ++ "." ++ tc) = true := by
      rw [hgC, hasNode_safeAppend]; exact htcB
    -- list-compatibility is carried to the step that consumes it
    have cAE : ListCompat gE tt "referenced_by" :=
      ListCompat_addEdge g ft tt eattrs tt "referenced_by" htt cA
    have cBE : ListCompat gE ft "reference_to" :=
      ListCompat_addEdge g ft tt eattrs ft "reference_to" hft cB
    have cCE : ListCompat gE (ft ++ "." ++ fc) "referenced_to" :=
      ListCompat_addEdge g ft tt eattrs _ "referenced_to" hfc cC
    have cDE : ListCompat gE (tt ++ "." ++ tc) "referenced_by" :=
      ListCompat_addEdge g ft tt eattrs _ "referenced_by" htc cD
    have cBA : ListCompat gA ft "reference_to" :=
      ListCompat_safeAppend_other gE tt "referenced_by" p ft "reference_to"
        (Or.inr (by decide)) cBE
    have cCA : ListCompat gA (ft ++ "." ++ fc) "referenced_to" :=
      ListCompat_safeAppend_other gE tt "referenced_by" p _ "referenced_to"
        (Or.inr (by decide)) cCE
    have cDA : ListCompat gA (tt ++ "." ++ tc) "referenced_by" :=
      ListCompat_safeAppend_other gE tt "referenced_by" p _ "referenced_by"
        (Or.inl (Ne.symm httne)) cDE
    have cCB : ListCompat gB (ft ++ "." ++ fc) "referenced_to" :=
      ListCompat_safeAppend_other gA ft "reference_to" p _ "referenced_to"
        (Or.inr (by decide)) cCA
    have cDB : ListCompat gB (tt ++ "." ++ tc) "referenced_by" :=
      ListCompat_safeAppend_other gA ft "reference_to" p _ "referenced_by"
        (Or.inr (by decide)) cDA
    have cDC : ListCompat gC (tt ++ "." ++ tc) "referenced_by" :=
      ListCompat_safeAppend_other gB (ft ++ "." ++ fc) "referenced_to"
        (tt ++ "." ++ tc) _ "referenced_by" (Or.inr (by decide)) cDB
    refine ⟨?_, ?_, ?_, ?_⟩
    · -- target table's referenced_by
      rw [hgD, refList_safeAppend_other _ _ _ _ _ _ (Or.inl httne),
        hgC, refList_safeAppend_other _ _ _ _ _ _ (Or.inr (by decide)),
        hgB, refList_safeAppend_other _ _ _ _ _ _ (Or.inr (by decide)),
        hgA, refList_safeAppend_same _ _ _ _ httE cAE,
        hgE, refList_addEdge _ _ _ _ _ _ htt]
    · -- source table's reference_to
      rw [hgD, refList_safeAppend_other _ _ _ _ _ _ (Or.inr (by decide)),
        hgC, refList_safeAppend_other _ _ _ _ _ _ (Or.inr (by decide)),
        hgB, refList_safeAppend_same _ _ _ _ hftA cBA,
        hgA, refList_safeAppend_other _ _ _ _ _ _ (Or.inr (by decide)),
        hgE, refList_addEdge _ _ _ _ _ _ hft]
    · -- source column's referenced_to
      rw [hgD, refList_safeAppend_other _ _ _ _ _ _ (Or.inr (by decide)),
        hgC, refList_safeAppend_same _ _ _ _ hfcB cCB,
        hgB, refList_safeAppend_other _ _ _ _ _ _ (Or.inr (by decide)),
        hgA, refList_safeAppend_other _ _ _ _ _ _ (Or.inr (by decide)),
        hgE, refList_addEdge _ _ _ _ _ _ hfc]
    · -- target column's referenced_by
      rw [hgD, refList_safeAppend_same _ _ _ _ htcC cDC,
        hgC, refList_safeAppend_other _ _ _ _ _ _ (Or.inr (by decide)),
        hgB, refList_safeAppend_other _ _ _ _ _ _ (Or.inr (by decide)),
        hgA, refList_safeAppend_other _ _ _ _ _ _ (Or.inl (Ne.symm httne)),
        hgE, refList_addEdge _ _ _ _ _ _ htc]
  · intro md5
    refine ⟨rfl, rfl, rfl, rfl⟩

/-- C2 counterexample: on a graph where the column nodes do not exist (here
the empty graph), `add_foreign_key` does not append an entry to the source
column's `referenced_to` — `safe_append` silently skips missing nodes — so
the unconditional "appends exactly one entry to each of four lists" is
false. -/
theorem C2_counterexample :
    ¬ (refListLen (add_foreign_key (fun _ => "h") DiGraph.empty "A" "b" "C" "d")
          ("A" ++ "." ++ "b") "referenced_to" =
        refListLen DiGraph.empty ("A" ++ "." ++ "b") "referenced_to" + 1) := by
  decide

theorem C2_fk_list_updates_witness :
    hasNode ordersCustomersBase "Orders" = true ∧
    hasNode ordersCustomersBase "Customers" = true ∧
    refList (add_foreign_key (fun _ => "h") ordersCustomersBase
        "Orders" "customer_id" "Customers" "id") "Customers" "referenced_by" =
      refList ordersCustomersBase "Customers" "referenced_by" ++
        ["Orders" ++ "." ++ "customer_id" ++ "=" ++ "Customers" ++ "." ++ "id"] := by
  refine ⟨by decide, by decide, ?_⟩
  exact (C2_fk_list_updates.1 (fun _ => "h") ordersCustomersBase
    "Orders" "customer_id" "Customers" "id"
    (by decide) (by decide) (by decide) (by decide)
    (Or.inr ⟨[], by decide⟩) (Or.inr ⟨[], by decide⟩)
    (Or.inr ⟨[], by decide⟩) (Or.inr ⟨[], by decide⟩)).1

/-! ### The interchange importer (`convert_single`) -/

theorem lookup_append_of_none {β : Type} (l l' : List (String × β))
    (k : String) (h : l.lookup k = none) :
    (l ++ l').lookup k = l'.lookup k := by
  induction l with
  | nil => rfl
  | cons hd rest ih =>
    obtain ⟨k0, b⟩ := hd
    by_cases hk : k = k0
    · subst hk
      simp [List.lookup] at h
    · have hbeq : (k == k0) = false := beq_false_of_ne hk
      simp only [List.lookup, hbeq] at h ⊢
      exact ih h

theorem findNodeAttrs_addNode_fresh (g : DiGraph) (id : String) (attrs : Attrs)
    (h : hasNode g id = false) :
    findNodeAttrs (addNode g id attrs) id = some attrs := by
  unfold addNode
  rw [if_neg (by rw [h]; exact Bool.false_ne_true)]
  unfold findNodeAttrs at *
  have hn : g.nodes.lookup id = none := by
    unfold hasNode findNodeAttrs at h
    exact Option.not_isSome_iff_eq_none.mp (by rw [h]; exact Bool.false_ne_true)
  rw [lookup_append_of_none _ _ _ hn]
  simp [List.lookup]

theorem lookup_setdefaultKey_same (a : Attrs) (k : String) (v : PVal) :
    (setdefaultKey a k v).lookup k = some ((a.lookup k).getD v) := by
  unfold setdefaultKey
  cases hl : a.lookup k with
  | some x => simp [hl]
  | none => simp [lookup_setKey_same]

theorem lookup_setdefaultKey_other (a : Attrs) (k : String) (v : PVal)
    (k' : String) (h : k' ≠ k) :
    (setdefaultKey a k v).lookup k' = a.lookup k' := by
  unfold setdefaultKey
  cases hl : a.lookup k with
  | some x => rfl
  | none => exact lookup_setKey_other a k v k' h

theorem column_addNode_lookups (g : DiGraph) (nid : String) (props : Attrs)
    (hfresh : hasNode g nid = false) :
    lookupAttr (addNode g nid (setdefaultKey (setdefaultKey
        (setKey props "type" (.s "Column")) "referenced_to" (.strList []))
        "referenced_by" (.strList []))) nid "type" = some (.s "Column") ∧
    lookupAttr (addNode g nid (setdefaultKey (setdefaultKey
        (setKey props "type" (.s "Column")) "referenced_to" (.strList []))
        "referenced_by" (.strList []))) nid "referenced_to" =
      some ((props.lookup "referenced_to").getD (.strList [])) ∧
    lookupAttr (addNode g nid (setdefaultKey (setdefaultKey
        (setKey props "type" (.s "Column")) "referenced_to" (.strList []))
        "referenced_by" (.strList []))) nid "referenced_by" =
      some ((props.lookup "referenced_by").getD (.strList [])) := by
  refine ⟨?_, ?_, ?_⟩
  · unfold lookupAttr
    rw [findNodeAttrs_addNode_fresh _ _ _ hfresh]
    simp only [Option.some_bind]
    rw [lookup_setdefaultKey_other _ _ _ _ (by decide),
      lookup_setdefaultKey_other _ _ _ _ (by decide),
      lookup_setKey_same]
  · unfold lookupAttr
    rw [findNodeAttrs_addNode_fresh _ _ _ hfresh]
    simp only [Option.some_bind]
    rw [lookup_setdefaultKey_other _ _ _ _ (by decide),
      lookup_setdefaultKey_same,
      lookup_setKey_other _ _ _ _ (by decide)]
  · unfold lookupAttr
    rw [findNodeAttrs_addNode_fresh _ _ _ hfresh]
    simp only [Option.some_bind]
    rw [lookup_setdefaultKey_same,
      lookup_setdefaultKey_other _ _ _ _ (by decide),
      lookup_setKey_other _ _ _ _ (by decide)]

/-- C8 (amended): the importer's identifier assignment and edge handling.
A Table-labeled node with a nonempty string `name` is stored under the bare
table name, with `type` set and the reference lists default-initialized;
a Table node whose `name` is missing or empty is **dropped entirely** (no
old-identifier fallback, contrary to the claim — see the counterexample).
A Column node uses `"<belongs_to>.<name>"` as its identifier, is inserted
into the graph with `type` set and `referenced_to`/`referenced_by`
default-initialized, and falls back to `str(old_id)` whenever either naming
field is missing **or empty** (all four failure modes covered), again with
the same attribute initialization.  An edge whose endpoint does not resolve
through the old-identifier map is silently skipped, leaving the graph
unchanged. -/
theorem C8_importer_behavior :
    (∀ (m : List (Int × String)) (g : DiGraph) (item : NodeItem) (n : String),
      item.labels.contains "Table" = true →
      getStrProp item.properties "name" = some n → n ≠ "" →
      hasNode g n = false →
      (convertNodeStep (m, g) item).1 = insertAssoc m item.old_id n ∧
      lookupAttr (convertNodeStep (m, g) item).2 n "type" = some (.s "Table") ∧
      lookupAttr (convertNodeStep (m, g) item).2 n "reference_to" =
        some ((item.properties.lookup "reference_to").getD (.strList [])) ∧
      lookupAttr (convertNodeStep (m, g) item).2 n "referenced_by" =
        some ((item.properties.lookup "referenced_by").getD (.strList []))) ∧
    (∀ (m : List (Int × String)) (g : DiGraph) (item : NodeItem),
      item.labels.contains "Table" = true →
      (getStrProp item.properties "name" = none ∨
        getStrProp item.properties "name" = some "") →
      convertNodeStep (m, g) item = (m, g)) ∧
    (∀ (m : List (Int × String)) (g : DiGraph) (item : NodeItem) (t c : String),
      item.labels.contains "Table" = false →
      item.labels.contains "Column" = true →
      getStrProp item.properties "belongs_to" = some t →
      getStrProp item.properties "name" = some c → t ≠ "" → c ≠ "" →
      (convertNodeStep (m, g) item).1 =
        insertAssoc m item.old_id (t ++ "." ++ c)) ∧
    (∀ (m : List (Int × String)) (g : DiGraph) (item : NodeItem) (t c : String),
      item.labels.contains "Table" = false →
      item.labels.contains "Column" = true →
      getStrProp item.properties "belongs_to" = some t →
      getStrProp item.properties "name" = some c → t ≠ "" → c ≠ "" →
      hasNode g (t ++ "." ++ c) = false →
      lookupAttr (convertNodeStep (m, g) item).2 (t ++ "." ++ c) "type" =
        some (.s "Column") ∧
      lookupAttr (convertNodeStep (m, g) item).2 (t ++ "." ++ c) "referenced_to" =
        some ((item.properties.lookup "referenced_to").getD (.strList [])) ∧
      lookupAttr (convertNodeStep (m, g) item).2 (t ++ "." ++ c) "referenced_by" =
        some ((item.properties.lookup "referenced_by").getD (.strList []))) ∧
    (∀ (m : List (Int × String)) (g : DiGraph) (item : NodeItem),
      item.labels.contains "Table" = false →
      item.labels.contains "Column" = true →
      (getStrProp item.properties "belongs_to" = none ∨
        getStrProp item.properties "name" = none ∨
        getStrProp item.properties "belongs_to" = some "" ∨
        getStrProp item.properties "name" = some "") →
      (convertNodeStep (m, g) item).1 =
        insertAssoc m item.old_id (toString item.old_id) ∧
      (hasNode g (toString item.old_id) = false →
        lookupAttr (convertNodeStep (m, g) item).2 (toString item.old_id) "type" =
          some (.s "Column") ∧
        lookupAttr (convertNodeStep (m, g) item).2 (toString item.old_id) "referenced_to" =
          some ((item.properties.lookup "referenced_to").getD (.strList [])) ∧
        lookupAttr (convertNodeStep (m, g) item).2 (toString item.old_id) "referenced_by" =
          some ((item.properties.lookup "referenced_by").getD (.strList [])))) ∧
    (∀ (m : List (Int × String)) (g : DiGraph) (r : RelItem),
      m.lookup r.start_old_id = none ∨ m.lookup r.end_old_id = none →
      convertRelStep m g r = g) := by
  refine ⟨?_, ?_, ?_, ?_, ?_, ?_⟩
  · intro m g item n hlab hname hne hfresh
    have hmemT : "Table" ∈ item.labels := (contains_iff_mem _ _).mp hlab
    have hprops : (convertNodeStep (m, g) item) =
        (insertAssoc m item.old_id n,
          addNode g n (setdefaultKey (setdefaultKey
            (setKey item.properties "type" (.s "Table"))
            "reference_to" (.strList [])) "referenced_by" (.strList []))) := by
      simp [convertNodeStep, hmemT, hname, hne]
    rw [hprops]
    refine ⟨rfl, ?_, ?_, ?_⟩
    · unfold lookupAttr
      rw [findNodeAttrs_addNode_fresh _ _ _ hfresh]
      simp only [Option.some_bind]
      rw [lookup_setdefaultKey_other _ _ _ _ (by decide),
        lookup_setdefaultKey_other _ _ _ _ (by decide),
        lookup_setKey_same]
    · unfold lookupAttr
      rw [findNodeAttrs_addNode_fresh _ _ _ hfresh]
      simp only [Option.some_bind]
      rw [lookup_setdefaultKey_other _ _ _ _ (by decide),
        lookup_setdefaultKey_same,
        lookup_setKey_other _ _ _ _ (by decide)]
    · unfold lookupAttr
      rw [findNodeAttrs_addNode_fresh _ _ _ hfresh]
      simp only [Option.some_bind]
      rw [lookup_setdefaultKey_same,
        lookup_setdefaultKey_other _ _ _ _ (by decide),
        lookup_setKey_other _ _ _ _ (by decide)]
  · intro m g item hlab hname
    have hmemT : "Table" ∈ item.labels := (contains_iff_mem _ _).mp hlab
    rcases hname with hname | hname
    · simp [convertNodeStep, hmemT, hname]
    · simp [convertNodeStep, hmemT, hname]
  · intro m g item t c hlabT hlabC hbt hnm ht hc
    have hnotT : "Table" ∉ item.labels := by
      intro hm
      rw [(contains_iff_mem _ _).mpr hm] at hlabT
      cases hlabT
    have hmemC : "Column" ∈ item.labels := (contains_iff_mem _ _).mp hlabC
    simp [convertNodeStep, hnotT, hmemC, hbt, hnm, ht, hc]
  · intro m g item t c hlabT hlabC hbt hnm ht hc hfresh
    have hnotT : "Table" ∉ item.labels := by
      intro hm
      rw [(contains_iff_mem _ _).mpr hm] at hlabT
      cases hlabT
    have hmemC : "Column" ∈ item.labels := (contains_iff_mem _ _).mp hlabC
    have hstep : convertNodeStep (m, g) item =
        (insertAssoc m item.old_id (t ++ "." ++ c),
          addNode g (t ++ "." ++ c) (setdefaultKey (setdefaultKey
            (setKey item.properties "type" (.s "Column"))
            "referenced_to" (.strList [])) "referenced_by" (.strList []))) := by
      simp [convertNodeStep, hnotT, hmemC, hbt, hnm, ht, hc]
    rw [hstep]
    exact column_addNode_lookups g (t ++ "." ++ c) item.properties hfresh
  · intro m g item hlabT hlabC hdisj
    have hnotT : "Table" ∉ item.labels := by
      intro hm
      rw [(contains_iff_mem _ _).mpr hm] at hlabT
      cases hlabT
    have hmemC : "Column" ∈ item.labels := (contains_iff_mem _ _).mp hlabC
    have hstep : convertNodeStep (m, g) item =
        (insertAssoc m item.old_id (toString item.old_id),
          addNode g (toString item.old_id) (setdefaultKey (setdefaultKey
            (setKey item.properties "type" (.s "Column"))
            "referenced_to" (.strList [])) "referenced_by" (.strList []))) := by
      rcases hdisj with h | h | h | h
      · simp [convertNodeStep, hnotT, hmemC, h]
      · cases hb : getStrProp item.properties "belongs_to" with
        | none => simp [convertNodeStep, hnotT, hmemC, hb]
        | some t => simp [convertNodeStep, hnotT, hmemC, hb, h]
      · cases hn : getStrProp item.properties "name" with
        | none => simp [convertNodeStep, hnotT, hmemC, hn]
        | some c => simp [convertNodeStep, hnotT, hmemC, h, hn]
      · cases hb : getStrProp item.properties "belongs_to" with
        | none => simp [convertNodeStep, hnotT, hmemC, hb]
        | some t => simp [convertNodeStep, hnotT, hmemC, hb, h]
    constructor
    · rw [hstep]
    · intro hfresh
      rw [hstep]
      exact column_addNode_lookups g (toString item.old_id) item.properties hfresh
  · intro m g r h
    rcases h with h | h
    · simp [convertRelStep, h]
    · cases hs : m.lookup r.start_old_id with
      | none => simp [convertRelStep, hs]
      | some s => simp [convertRelStep, hs, h]

/-- C8 counterexample: a Table-labeled node with `old_id = 7` and no `name`
property is dropped by the importer — the converted graph has no nodes at
all — rather than being stored under the old identifier as the claim's
fallback would require. -/
theorem C8_counterexample :
    (convert_single [⟨7, ["Table"], []⟩] []).nodes = [] ∧
    hasNode (convert_single [⟨7, ["Table"], []⟩] []) "7" = false := by
  constructor
  · rfl
  · rfl

theorem C8_importer_behavior_witness :
    ((convertNodeStep ([], DiGraph.empty) ⟨3, ["Table"], [("name", .s "T1")]⟩).1 =
      insertAssoc [] 3 "T1") ∧
    lookupAttr (convertNodeStep ([], DiGraph.empty)
      ⟨3, ["Table"], [("name", .s "T1")]⟩).2 "T1" "reference_to" =
      some (.strList []) ∧
    lookupAttr (convertNodeStep ([], DiGraph.empty)
      ⟨4, ["Column"], [("belongs_to", .s "T1"), ("name", .s "c1")]⟩).2
      ("T1" ++ "." ++ "c1") "referenced_to" = some (.strList []) ∧
    (convertNodeStep ([], DiGraph.empty) ⟨5, ["Column"], []⟩).1 =
      insertAssoc [] 5 (toString (5 : Int)) := by
  refine ⟨?_, ?_, ?_, ?_⟩
  · exact (C8_importer_behavior.1 [] DiGraph.empty
      ⟨3, ["Table"], [("name", .s "T1")]⟩ "T1"
      (by decide) (by decide) (by decide) (by decide)).1
  · have h := (C8_importer_behavior.1 [] DiGraph.empty
      ⟨3, ["Table"], [("name", .s "T1")]⟩ "T1"
      (by decide) (by decide) (by decide) (by decide)).2.2.1
    simpa using h
  · have h := (C8_importer_behavior.2.2.2.1 [] DiGraph.empty
      ⟨4, ["Column"], [("belongs_to", .s "T1"), ("name", .s "c1")]⟩ "T1" "c1"
      (by decide) (by decide) (by decide) (by decide) (by decide) (by decide)
      (by decide)).2.1
    simpa using h
  · exact (C8_importer_behavior.2.2.2.2.1 [] DiGraph.empty
      ⟨5, ["Column"], []⟩ (by decide) (by decide) (Or.inl rfl)).1

/-! ### Breadth-first reach sets (the explorer's graph searches) -/

theorem nodup_length_le_of_subset (l m : List String) (h : l.Nodup)
    (hs : l ⊆ m) : l.length ≤ m.length := by
  have h1 : l.toFinset.card = l.length := List.toFinset_card_of_nodup h
  have h2 : l.toFinset ⊆ m.toFinset := by
    intro a ha
    rw [List.mem_toFinset] at ha ⊢
    exact hs ha
  have h3 := Finset.card_le_card h2
  have h4 : m.toFinset.card ≤ m.length := List.toFinset_card_le m
  omega

theorem contains_eq_false_iff (l : List String) (v : String) :
    l.contains v = false ↔ v ∉ l := by
  constructor
  · intro h hm
    rw [(contains_iff_mem l v).mpr hm] at h
    cases h
  · intro h
    cases hc : l.contains v
    · rfl
    · exact absurd ((contains_iff_mem l v).mp hc) h

theorem mem_expandFrontier (univ : List String) (adj : String → String → Bool)
    (S : List String) (v : String) :
    v ∈ expandFrontier univ adj S ↔
      v ∈ S ∨ (v ∈ univ ∧ v ∉ S ∧ ∃ u ∈ S, adj u v = true) := by
  unfold expandFrontier
  rw [List.mem_append, List.mem_filter]
  constructor
  · rintro (h | ⟨hu, hp⟩)
    · exact Or.inl h
    · rw [Bool.and_eq_true, Bool.not_eq_true'] at hp
      obtain ⟨hnc, hany⟩ := hp
      obtain ⟨u, hu', ha⟩ := List.any_eq_true.mp hany
      exact Or.inr ⟨hu, (contains_eq_false_iff S v).mp hnc, u, hu', ha⟩
  · rintro (h | ⟨hu, hnm, u, huS, ha⟩)
    · exact Or.inl h
    · right
      refine ⟨hu, ?_⟩
      rw [Bool.and_eq_true, Bool.not_eq_true']
      exact ⟨(contains_eq_false_iff S v).mpr hnm, List.any_eq_true.mpr ⟨u, huS, ha⟩⟩

theorem subset_expandFrontier (univ : List String) (adj : String → String → Bool)
    (S : List String) : S ⊆ expandFrontier univ adj S := by
  intro v hv
  exact List.mem_append.mpr (Or.inl hv)

theorem reach_mono_succ (univ : List String) (adj : String → String → Bool)
    (s : String) (k : Nat) :
    reach univ adj s k ⊆ reach univ adj s (k + 1) :=
  subset_expandFrontier univ adj (reach univ adj s k)

theorem reach_mono (univ : List String) (adj : String → String → Bool)
    (s : String) (k m : Nat) (h : k ≤ m) :
    reach univ adj s k ⊆ reach univ adj s m := by
  induction m with
  | zero =>
    have hk : k = 0 := Nat.le_zero.mp h
    subst hk
    exact fun v hv => hv
  | succ n ih =>
    rcases Nat.lt_or_ge k (n + 1) with hlt | hge
    · exact fun v hv => reach_mono_succ univ adj s n (ih (Nat.lt_succ_iff.mp hlt) hv)
    · have hk : k = n + 1 := le_antisymm h hge
      subst hk
      exact fun v hv => hv

theorem reach_sound (univ : List String) (adj : String → String → Bool)
    (s : String) (k : Nat) (v : String) (h : v ∈ reach univ adj s k) :
    ∃ p, IsWalk adj s v p ∧ p.length ≤ k + 1 := by
  induction k generalizing v with
  | zero =>
    have hv : v = s := by simpa [reach] using h
    subst hv
    exact ⟨[v], ⟨by simp, List.chain'_singleton v, rfl, rfl⟩, by simp⟩
  | succ n ih =>
    rcases (mem_expandFrontier univ adj (reach univ adj s n) v).mp h with
      hv | ⟨hu, hnm, u, huS, ha⟩
    · obtain ⟨p, hw, hl⟩ := ih v hv
      exact ⟨p, hw, le_trans hl (Nat.le_succ _)⟩
    · obtain ⟨p, ⟨hne, hch, hhd, hlast⟩, hl⟩ := ih u huS
      refine ⟨p ++ [v], ⟨by simp, ?_, ?_, List.getLast?_concat p⟩, ?_⟩
      · rw [List.chain'_append]
        refine ⟨hch, List.chain'_singleton v, ?_⟩
        intro x hx y hy
        have hxu : u = x := by
          rw [hlast] at hx
          simpa using hx
        have hyv : v = y := by simpa using hy
        rw [← hxu, ← hyv]
        exact ha
      · rw [List.head?_append]
        rw [hhd]
        rfl
      · simp only [List.length_append, List.length_singleton]
        omega

theorem reach_complete (univ : List String) (adj : String → String → Bool)
    (s : String)
    (hclosed : ∀ u v, adj u v = true → u ∈ univ ∧ v ∈ univ) :
    ∀ (p : List String) (v : String), IsWalk adj s v p →
      v ∈ reach univ adj s (p.length - 1) := by
  intro p
  induction p using List.reverseRecOn with
  | nil =>
    intro v hw
    exact absurd rfl hw.1
  | append_singleton q a ihq =>
    intro v hw
    obtain ⟨hne, hch, hhd, hlast⟩ := hw
    have hva : v = a := by
      rw [List.getLast?_concat q] at hlast
      simpa using hlast.symm
    subst hva
    by_cases hqnil : q = []
    · subst hqnil
      have hsa : v = s := by
        simp only [List.nil_append] at hhd
        simpa using hhd
      subst hsa
      simp [reach]
    · have hqne : q ≠ [] := hqnil
      obtain ⟨u, hu⟩ : ∃ u, q.getLast? = some u := by
        cases hgl : q.getLast? with
        | none => exact absurd (List.getLast?_eq_none_iff.mp hgl) hqne
        | some u => exact ⟨u, rfl⟩
      have hchq : q.Chain' (fun a b => adj a b = true) :=
        (List.chain'_append.mp hch).1
      have hadj : adj u v = true := by
        have hlink := (List.chain'_append.mp hch).2.2
        exact hlink u hu v rfl
      have hhdq : q.head? = some s := by
        rw [List.head?_append] at hhd
        rcases List.exists_cons_of_ne_nil hqne with ⟨q0, qrest, hq⟩
        rw [hq] at hhd ⊢
        simpa using hhd
      have hwq : IsWalk adj s u q := ⟨hqne, hchq, hhdq, hu⟩
      have hur : u ∈ reach univ adj s (q.length - 1) := ihq u hwq
      have hlen : (q ++ [v]).length - 1 = q.length := by
        simp
      rw [hlen]
      have hq1 : q.length - 1 + 1 = q.length := by
        have : 0 < q.length := List.length_pos.mpr hqne
        omega
      by_cases hvr : v ∈ reach univ adj s (q.length - 1)
      · exact reach_mono univ adj s _ _ (by omega) hvr
      · have : v ∈ reach univ adj s (q.length - 1 + 1) :=
          (mem_expandFrontier univ adj _ v).mpr
            (Or.inr ⟨(hclosed u v hadj).2, hvr, u, hur, hadj⟩)
        rw [hq1] at this
        exact this

theorem reach_nodup (univ : List String) (adj : String → String → Bool)
    (s : String) (hnd : univ.Nodup) (k : Nat) : (reach univ adj s k).Nodup := by
  induction k with
  | zero => simp [reach]
  | succ n ih =>
    show (expandFrontier univ adj (reach univ adj s n)).Nodup
    unfold expandFrontier
    rw [List.nodup_append]
    refine ⟨ih, List.Nodup.filter _ hnd, ?_⟩
    intro a ha hafil
    have := (List.mem_filter.mp hafil).2
    rw [Bool.and_eq_true, Bool.not_eq_true'] at this
    exact absurd ha ((contains_eq_false_iff _ a).mp this.1)

theorem reach_subset_cons (univ : List String) (adj : String → String → Bool)
    (s : String) (k : Nat) : reach univ adj s k ⊆ s :: univ := by
  induction k with
  | zero =>
    intro v hv
    have hvs : v = s := by simpa [reach] using hv
    subst hvs
    exact List.mem_cons_self _ _
  | succ n ih =>
    intro v hv
    rcases (mem_expandFrontier univ adj _ v).mp hv with h | ⟨hu, -, -⟩
    · exact ih h
    · exact List.mem_cons_of_mem s hu

theorem reach_stab (univ : List String) (adj : String → String → Bool)
    (s : String) (k : Nat)
    (h : reach univ adj s (k + 1) = reach univ adj s k) :
    ∀ m, k ≤ m → reach univ adj s m = reach univ adj s k := by
  intro m hm
  induction m, hm using Nat.le_induction with
  | base => rfl
  | succ n hn ih =>
    show expandFrontier univ adj (reach univ adj s n) = reach univ adj s k
    rw [ih]
    exact h

theorem reach_fix (univ : List String) (adj : String → String → Bool)
    (s : String) (hnd : univ.Nodup) :
    ∃ k ≤ univ.length, reach univ adj s (k + 1) = reach univ adj s k := by
  by_contra hcon
  push_neg at hcon
  have hgrow : ∀ k, k ≤ univ.length + 1 → k + 1 ≤ (reach univ adj s k).length := by
    intro k
    induction k with
    | zero => intro _; simp [reach]
    | succ n ih =>
      intro hn
      have hne : reach univ adj s (n + 1) ≠ reach univ adj s n :=
        hcon n (by omega)
      have hre : reach univ adj s (n + 1) =
          reach univ adj s n ++ univ.filter (fun v =>
            !(reach univ adj s n).contains v &&
              (reach univ adj s n).any (fun u => adj u v)) := rfl
      have hfil : (univ.filter (fun v => !(reach univ adj s n).contains v &&
          (reach univ adj s n).any (fun u => adj u v))).length ≠ 0 := by
        intro h0
        apply hne
        rw [hre, List.length_eq_zero.mp h0, List.append_nil]
      have hlen : (reach univ adj s (n + 1)).length =
          (reach univ adj s n).length + (univ.filter (fun v =>
            !(reach univ adj s n).contains v &&
              (reach univ adj s n).any (fun u => adj u v))).length := by
        rw [hre, List.length_append]
      have := ih (by omega)
      omega
  have hbig := hgrow (univ.length + 1) (le_refl _)
  have hsmall : (reach univ adj s (univ.length + 1)).length ≤ univ.length + 1 := by
    have h1 := nodup_length_le_of_subset _ (s :: univ)
      (reach_nodup univ adj s hnd (univ.length + 1))
      (reach_subset_cons univ adj s (univ.length + 1))
    simpa using h1
  omega

theorem reach_top (univ : List String) (adj : String → String → Bool)
    (s : String) (hnd : univ.Nodup) (m : Nat) (v : String)
    (h : v ∈ reach univ adj s m) : v ∈ reach univ adj s (univ.length + 1) := by
  obtain ⟨k, hk, hfix⟩ := reach_fix univ adj s hnd
  by_cases hm : m ≤ univ.length + 1
  · exact reach_mono univ adj s m _ hm h
  · have hmk : reach univ adj s m = reach univ adj s k :=
      reach_stab univ adj s k hfix m (by omega)
    rw [hmk] at h
    exact reach_mono univ adj s k _ (by omega) h

theorem lookup_mem {α β : Type} [BEq α] [LawfulBEq α] (l : List (α × β))
    (k : α) (b : β) (h : l.lookup k = some b) : (k, b) ∈ l := by
  induction l with
  | nil => cases h
  | cons hd rest ih =>
    obtain ⟨k0, b0⟩ := hd
    by_cases hk : k == k0
    · have hkk : k = k0 := eq_of_beq hk
      subst hkk
      simp only [List.lookup, beq_self_eq_true] at h
      have : b0 = b := by simpa using h
      subst this
      exact List.mem_cons_self _ _
    · have hbeq : (k == k0) = false := by
        cases hc : (k == k0)
        · rfl
        · exact absurd hc hk
      simp only [List.lookup, hbeq] at h
      exact List.mem_cons_of_mem _ (ih h)

theorem hasEdge_mem_edges (g : DiGraph) (u v : String)
    (h : hasEdge g u v = true) : ∃ attrs, ((u, v), attrs) ∈ g.edges := by
  unfold hasEdge findEdgeAttrs at h
  obtain ⟨attrs, ha⟩ := Option.isSome_iff_exists.mp h
  exact ⟨attrs, lookup_mem _ _ _ ha⟩

theorem undirAdj_closed (g : DiGraph) (hWf : WfGraph g) :
    ∀ u v, undirAdj g u v = true → u ∈ nodeIds g ∧ v ∈ nodeIds g := by
  intro u v h
  rw [undirAdj, Bool.or_eq_true] at h
  rcases h with h | h
  · obtain ⟨attrs, hm⟩ := hasEdge_mem_edges g u v h
    obtain ⟨h1, h2⟩ := hWf.2 _ hm
    exact ⟨(hasNode_iff_mem_nodeIds g u).mp h1, (hasNode_iff_mem_nodeIds g v).mp h2⟩
  · obtain ⟨attrs, hm⟩ := hasEdge_mem_edges g v u h
    obtain ⟨h1, h2⟩ := hWf.2 _ hm
    exact ⟨(hasNode_iff_mem_nodeIds g u).mp h2, (hasNode_iff_mem_nodeIds g v).mp h1⟩

/-- C5: for every table node `T` present in the graph and every hop bound,
`get_neighbors` succeeds and returns exactly the nodes distinct from `T`,
typed `"Table"`, at undirected shortest-path distance ≤ hop (i.e. joined to
`T` by an undirected walk of at most `hop` edges); in particular the result
never contains `T` itself and never contains a `"Column"`-typed node. -/
theorem C5_get_neighbors (g : DiGraph) (T : String) (hop : Nat)
    (hWf : WfGraph g) (hT : hasNode g T = true) :
    ∃ l, get_neighbors g T hop = some l ∧
      T ∉ l ∧
      (∀ n ∈ l, isTableNode g n = true) ∧
      (∀ n ∈ l, lookupAttr g n "type" ≠ some (.s "Column")) ∧
      (∀ n, n ∈ l ↔ n ∈ nodeIds g ∧ n ≠ T ∧ isTableNode g n = true ∧
        ∃ p, IsWalk (undirAdj g) T n p ∧ p.length ≤ hop + 1) := by
  have htab : ∀ n, isTableNode g n = true →
      lookupAttr g n "type" = some (.s "Table") := by
    intro n h
    unfold isTableNode at h
    exact of_decide_eq_true h
  unfold get_neighbors
  rw [if_pos hT]
  refine ⟨_, rfl, ?_, ?_, ?_, ?_⟩
  · intro hTl
    have hp := (List.mem_filter.mp hTl).2
    simp at hp
  · intro n hn
    have hp := (List.mem_filter.mp hn).2
    simp only [Bool.and_eq_true, decide_eq_true_eq] at hp
    exact hp.2
  · intro n hn hcol
    have hp := (List.mem_filter.mp hn).2
    simp only [Bool.and_eq_true, decide_eq_true_eq] at hp
    have := htab n hp.2
    rw [this] at hcol
    exact absurd hcol (by decide)
  · intro n
    rw [List.mem_filter]
    constructor
    · rintro ⟨hmem, hp⟩
      simp only [Bool.and_eq_true, decide_eq_true_eq] at hp
      obtain ⟨⟨hreach, hne⟩, htb⟩ := hp
      have hr : n ∈ reach (nodeIds g) (undirAdj g) T hop :=
        (contains_iff_mem _ n).mp hreach
      obtain ⟨p, hw, hl⟩ := reach_sound _ _ _ _ _ hr
      exact ⟨hmem, hne, htb, p, hw, hl⟩
    · rintro ⟨hmem, hne, htb, p, hw, hl⟩
      have hr : n ∈ reach (nodeIds g) (undirAdj g) T (p.length - 1) :=
        reach_complete _ _ _ (undirAdj_closed g hWf) p n hw
      have hr2 : n ∈ reach (nodeIds g) (undirAdj g) T hop :=
        reach_mono _ _ _ _ _ (by omega) hr
      refine ⟨hmem, ?_⟩
      simp only [Bool.and_eq_true, decide_eq_true_eq]
      exact ⟨⟨(contains_iff_mem _ n).mpr hr2, hne⟩, htb⟩

theorem C5_get_neighbors_witness :
    WfGraph (ordersCustomersGraph (fun _ => "h")) ∧
    hasNode (ordersCustomersGraph (fun _ => "h")) "Orders" = true ∧
    ∃ l, get_neighbors (ordersCustomersGraph (fun _ => "h")) "Orders" 1 = some l ∧
      "Orders" ∉ l ∧ (∀ n ∈ l, isTableNode (ordersCustomersGraph (fun _ => "h")) n = true) := by
  have hWf : WfGraph (ordersCustomersGraph (fun _ => "h")) := by
    constructor
    · decide
    · decide
  refine ⟨hWf, by decide, ?_⟩
  obtain ⟨l, heq, hnot, htab, -, -⟩ :=
    C5_get_neighbors (ordersCustomersGraph (fun _ => "h")) "Orders" 1 hWf (by decide)
  exact ⟨l, heq, hnot, htab⟩

/-! ### Walk symmetry and composition (for connectivity) -/

theorem IsWalk_reverse (adj : String → String → Bool)
    (hsymm : ∀ a b, adj a b = adj b a) (s t : String) (p : List String)
    (h : IsWalk adj s t p) : IsWalk adj t s p.reverse := by
  obtain ⟨hne, hch, hhd, hlast⟩ := h
  refine ⟨by simpa using hne, ?_, ?_, ?_⟩
  · rw [List.chain'_reverse]
    refine hch.imp ?_
    intro a b hab
    show adj b a = true
    rw [hsymm b a]
    exact hab
  · rw [List.head?_reverse p]
    exact hlast
  · rw [List.getLast?_reverse p]
    exact hhd

theorem IsWalk_append (adj : String → String → Bool) (a b c : String)
    (p q : List String) (hp : IsWalk adj a b p) (hq : IsWalk adj b c q) :
    ∃ r, IsWalk adj a c r := by
  obtain ⟨hpne, hpch, hphd, hplast⟩ := hp
  obtain ⟨hqne, hqch, hqhd, hqlast⟩ := hq
  cases q with
  | nil => exact absurd rfl hqne
  | cons q0 qtail =>
    have hq0 : q0 = b := by simpa using hqhd
    subst hq0
    cases qtail with
    | nil =>
      have hcb : c = q0 := by simpa using hqlast.symm
      subst hcb
      exact ⟨p, hpne, hpch, hphd, hplast⟩
    | cons q1 qrest =>
      refine ⟨p ++ (q1 :: qrest), ⟨by simp [hpne], ?_, ?_, ?_⟩⟩
      · rw [List.chain'_append]
        refine ⟨hpch, (List.chain'_cons.mp hqch).2, ?_⟩
        intro x hx y hy
        have hxb : q0 = x := by
          rw [hplast] at hx
          simpa using hx
        have hyq1 : q1 = y := by simpa using hy
        rw [← hxb, ← hyq1]
        exact (List.chain'_cons.mp hqch).1
      · rw [List.head?_append, hphd]
        rfl
      · rw [List.getLast?_append_of_ne_nil p (List.cons_ne_nil q1 qrest)]
        have : (q0 :: q1 :: qrest).getLast? = (q1 :: qrest).getLast? := by
          rw [List.getLast?_cons_cons]
        rw [← this]
        exact hqlast

theorem undirAdj_symm (g : DiGraph) (u v : String) :
    undirAdj g u v = undirAdj g v u := by
  unfold undirAdj
  exact Bool.or_comm _ _

theorem inducedAdj_symm (g : DiGraph) (names : List String) (u v : String) :
    inducedAdj g names u v = inducedAdj g names v u := by
  unfold inducedAdj
  rw [undirAdj_symm]
  cases (inducedSub g names).contains u <;>
    cases (inducedSub g names).contains v <;>
    cases undirAdj g v u <;> rfl

theorem mem_inducedSub (g : DiGraph) (names : List String) (v : String) :
    v ∈ inducedSub g names ↔ v ∈ nodeIds g ∧ v ∈ names := by
  unfold inducedSub
  rw [List.mem_filter]
  constructor
  · rintro ⟨h1, h2⟩
    exact ⟨h1, (contains_iff_mem _ _).mp h2⟩
  · rintro ⟨h1, h2⟩
    exact ⟨h1, (contains_iff_mem _ _).mpr h2⟩

theorem inducedAdj_closed (g : DiGraph) (names : List String) :
    ∀ u v, inducedAdj g names u v = true →
      u ∈ inducedSub g names ∧ v ∈ inducedSub g names := by
  intro u v h
  unfold inducedAdj at h
  rw [Bool.and_eq_true, Bool.and_eq_true] at h
  exact ⟨(contains_iff_mem _ _).mp h.1.2, (contains_iff_mem _ _).mp h.2⟩

/-- C7: `is_subgraph_connected([])` is `False`; for a single existing table
`T`, `is_subgraph_connected([T])` is `True`; and in general, for a nonempty
list of names that all exist in a well-formed graph, the call succeeds and
answers `True` exactly when every two of the given tables are joined by an
undirected walk inside the induced subgraph (i.e. the induced subgraph is a
single connected component). -/
theorem C7_is_subgraph_connected :
    (∀ g : DiGraph, is_subgraph_connected g [] = .ok false) ∧
    (∀ (g : DiGraph) (T : String), hasNode g T = true →
      is_subgraph_connected g [T] = .ok true) ∧
    (∀ (g : DiGraph) (names : List String), WfGraph g → names ≠ [] →
      (∀ n ∈ names, hasNode g n = true) →
      ∃ b, is_subgraph_connected g names = .ok b ∧
        (b = true ↔ ∀ u ∈ names, ∀ v ∈ names,
          ∃ p, IsWalk (inducedAdj g names) u v p)) := by
  refine ⟨?_, ?_, ?_⟩
  · intro g
    rfl
  · intro g T hT
    have hTsub : T ∈ inducedSub g [T] :=
      (mem_inducedSub g [T] T).mpr ⟨(hasNode_iff_mem_nodeIds g T).mp hT, by simp⟩
    have hall : ∀ v ∈ inducedSub g [T], v = T := by
      intro v hv
      have := ((mem_inducedSub g [T] v).mp hv).2
      simpa using this
    unfold is_subgraph_connected
    rw [if_neg (by simp)]
    split
    · rename_i hnil
      rw [hnil] at hTsub
      cases hTsub
    · rename_i s0 tail hcons
      have hs0 : s0 = T := hall s0 (by rw [hcons]; exact List.mem_cons_self _ _)
      congr 1
      rw [List.all_eq_true]
      intro v hv
      have hvT : v = T := hall v hv
      subst hvT
      apply (contains_iff_mem _ _).mpr
      apply reach_mono _ _ _ 0 _ (Nat.zero_le _)
      simp [reach, hs0]
  · intro g names hWf hne hex
    obtain ⟨n0, hn0⟩ := List.exists_mem_of_ne_nil names hne
    have hn0sub : n0 ∈ inducedSub g names :=
      (mem_inducedSub g names n0).mpr
        ⟨(hasNode_iff_mem_nodeIds g n0).mp (hex n0 hn0), hn0⟩
    have hsubnd : (inducedSub g names).Nodup := List.Nodup.filter _ hWf.1
    unfold is_subgraph_connected
    rw [if_neg hne]
    split
    · rename_i hnil
      rw [hnil] at hn0sub
      cases hn0sub
    · rename_i s0 tail hcons
      have hs0sub : s0 ∈ inducedSub g names := by
        rw [hcons]
        exact List.mem_cons_self _ _
      have hs0names : s0 ∈ names := ((mem_inducedSub g names s0).mp hs0sub).2
      refine ⟨_, rfl, ?_⟩
      constructor
      · intro hb u huN v hvN
        have hall := List.all_eq_true.mp hb
        have husub : u ∈ inducedSub g names :=
          (mem_inducedSub g names u).mpr
            ⟨(hasNode_iff_mem_nodeIds g u).mp (hex u huN), huN⟩
        have hvsub : v ∈ inducedSub g names :=
          (mem_inducedSub g names v).mpr
            ⟨(hasNode_iff_mem_nodeIds g v).mp (hex v hvN), hvN⟩
        have hur : u ∈ reach (inducedSub g names) (inducedAdj g names) s0
            ((inducedSub g names).length + 1) :=
          (contains_iff_mem _ _).mp (hall u husub)
        have hvr : v ∈ reach (inducedSub g names) (inducedAdj g names) s0
            ((inducedSub g names).length + 1) :=
          (contains_iff_mem _ _).mp (hall v hvsub)
        obtain ⟨pu, hwu, -⟩ := reach_sound _ _ _ _ _ hur
        obtain ⟨pv, hwv, -⟩ := reach_sound _ _ _ _ _ hvr
        have hwu' := IsWalk_reverse _ (inducedAdj_symm g names) _ _ _ hwu
        exact IsWalk_append _ u s0 v _ _ hwu' hwv
      · intro hspec
        rw [List.all_eq_true]
        intro x hxsub
        have hxN : x ∈ names := ((mem_inducedSub g names x).mp hxsub).2
        obtain ⟨p, hw⟩ := hspec s0 hs0names x hxN
        have hx1 : x ∈ reach (inducedSub g names) (inducedAdj g names) s0
            (p.length - 1) :=
          reach_complete _ _ _ (inducedAdj_closed g names) p x hw
        exact (contains_iff_mem _ _).mpr
          (reach_top _ _ _ hsubnd _ _ hx1)

theorem C7_is_subgraph_connected_witness :
    hasNode (ordersCustomersGraph (fun _ => "h")) "Orders" = true ∧
    is_subgraph_connected (ordersCustomersGraph (fun _ => "h")) ["Orders"] =
      .ok true := by
  refine ⟨by decide, ?_⟩
  exact C7_is_subgraph_connected.2.1 (ordersCustomersGraph (fun _ => "h"))
    "Orders" (by decide)

/-! ### Shortest-path construction -/

theorem buildPath_spec (univ : List String) (adj : String → String → Bool)
    (src : String) :
    ∀ (d : Nat) (t : String), t ∈ reach univ adj src d →
      IsWalk adj src t (buildPath univ adj src d t) ∧
      (buildPath univ adj src d t).length ≤ d + 1 := by
  intro d
  induction d with
  | zero =>
    intro t ht
    have hts : t = src := by simpa [reach] using ht
    subst hts
    exact ⟨⟨by simp [buildPath], by simp [buildPath], rfl, rfl⟩, by simp [buildPath]⟩
  | succ n ih =>
    intro t ht
    by_cases hin : t ∈ reach univ adj src n
    · obtain ⟨hw, hl⟩ := ih t hin
      rw [show buildPath univ adj src (n + 1) t = buildPath univ adj src n t from
        by rw [buildPath, if_pos hin]]
      exact ⟨hw, le_trans hl (Nat.le_succ _)⟩
    · have hex : ∃ u ∈ reach univ adj src n, adj u t = true := by
        rcases (mem_expandFrontier univ adj _ t).mp ht with h | ⟨-, -, u, hu, ha⟩
        · exact absurd h hin
        · exact ⟨u, hu, ha⟩
      obtain ⟨u', hfind⟩ : ∃ u', (reach univ adj src n).find? (fun u => adj u t) = some u' := by
        cases hf : (reach univ adj src n).find? (fun u => adj u t) with
        | some u' => exact ⟨u', rfl⟩
        | none =>
          obtain ⟨u, hu, ha⟩ := hex
          have := List.find?_eq_none.mp hf u hu
          rw [ha] at this
          exact absurd rfl this
      have hu'mem : u' ∈ reach univ adj src n := List.mem_of_find?_eq_some hfind
      have hu'adj : adj u' t = true := by
        have := List.find?_some hfind
        simpa using this
      obtain ⟨⟨hpne, hpch, hphd, hplast⟩, hl⟩ := ih u' hu'mem
      rw [show buildPath univ adj src (n + 1) t =
          buildPath univ adj src n u' ++ [t] from
        by rw [buildPath, if_neg hin, hfind]]
      refine ⟨⟨by simp, ?_, ?_, List.getLast?_concat _⟩, ?_⟩
      · rw [List.chain'_append]
        refine ⟨hpch, List.chain'_singleton t, ?_⟩
        intro x hx y hy
        have hxu : u' = x := by
          rw [hplast] at hx
          simpa using hx
        have hyt : t = y := by simpa using hy
        rw [← hxu, ← hyt]
        exact hu'adj
      · rw [List.head?_append, hphd]
        rfl
      · simp only [List.length_append, List.length_singleton]
        omega

/-- C6: `get_shortest_path` never raises (it is a total function into lists):
it returns `[]` whenever an endpoint is missing from the graph or no
undirected walk joins the two nodes (the `NodeNotFound` / `NetworkXNoPath`
handlers), and otherwise it returns a minimal-length undirected walk from
source to target filtered to the `"Table"`-typed nodes. -/
theorem C6_get_shortest_path (g : DiGraph) (s t : String) (hWf : WfGraph g) :
    ((hasNode g s = false ∨ hasNode g t = false ∨
        ¬ ∃ p, IsWalk (undirAdj g) s t p) → get_shortest_path g s t = []) ∧
    (hasNode g s = true → hasNode g t = true →
      (∃ p, IsWalk (undirAdj g) s t p) →
      ∃ p, IsWalk (undirAdj g) s t p ∧
        (∀ q, IsWalk (undirAdj g) s t q → p.length ≤ q.length) ∧
        get_shortest_path g s t = p.filter (fun v => isTableNode g v)) := by
  constructor
  · intro h
    rcases h with h | h | h
    · unfold get_shortest_path
      rw [if_neg]
      rintro ⟨h1, -⟩
      rw [h] at h1
      cases h1
    · unfold get_shortest_path
      rw [if_neg]
      rintro ⟨-, h2⟩
      rw [h] at h2
      cases h2
    · unfold get_shortest_path
      by_cases hst : hasNode g s = true ∧ hasNode g t = true
      · rw [if_pos hst]
        rw [dif_neg]
        intro hr
        obtain ⟨p, hw, -⟩ := reach_sound _ _ _ _ _ hr
        exact h ⟨p, hw⟩
      · rw [if_neg hst]
  · intro hs ht hwalk
    obtain ⟨q0, hq0⟩ := hwalk
    have hreach : t ∈ reach (nodeIds g) (undirAdj g) s ((nodeIds g).length + 1) := by
      have h1 := reach_complete (nodeIds g) (undirAdj g) s
        (undirAdj_closed g hWf) q0 t hq0
      exact reach_top _ _ _ hWf.1 _ _ h1
    unfold get_shortest_path
    rw [if_pos ⟨hs, ht⟩]
    rw [dif_pos hreach]
    have hfind := Nat.find_spec
      (⟨(nodeIds g).length + 1, hreach⟩ : ∃ k, t ∈ reach (nodeIds g) (undirAdj g) s k)
    obtain ⟨hw, hlen⟩ := buildPath_spec (nodeIds g) (undirAdj g) s _ t hfind
    refine ⟨_, hw, ?_, rfl⟩
    intro q hq
    have hq_reach := reach_complete (nodeIds g) (undirAdj g) s
      (undirAdj_closed g hWf) q t hq
    have hmin := Nat.find_min'
      (⟨(nodeIds g).length + 1, hreach⟩ : ∃ k, t ∈ reach (nodeIds g) (undirAdj g) s k)
      hq_reach
    have hqpos : 0 < q.length := by
      cases q with
      | nil => exact absurd rfl hq.1
      | cons a l => simp
    omega

theorem C6_get_shortest_path_witness :
    WfGraph (ordersCustomersGraph (fun _ => "h")) ∧
    IsWalk (undirAdj (ordersCustomersGraph (fun _ => "h"))) "Orders" "Customers"
      ["Orders", "Customers"] ∧
    ∃ p, IsWalk (undirAdj (ordersCustomersGraph (fun _ => "h"))) "Orders" "Customers" p ∧
      (∀ q, IsWalk (undirAdj (ordersCustomersGraph (fun _ => "h"))) "Orders" "Customers" q →
        p.length ≤ q.length) ∧
      get_shortest_path (ordersCustomersGraph (fun _ => "h")) "Orders" "Customers" =
        p.filter (fun v => isTableNode (ordersCustomersGraph (fun _ => "h")) v) := by
  have hWf : WfGraph (ordersCustomersGraph (fun _ => "h")) := ⟨by decide, by decide⟩
  have hw : IsWalk (undirAdj (ordersCustomersGraph (fun _ => "h"))) "Orders" "Customers"
      ["Orders", "Customers"] := by
    refine ⟨by simp, ?_, rfl, rfl⟩
    rw [List.chain'_cons]
    exact ⟨by decide, List.chain'_singleton _⟩
  exact ⟨hWf, hw,
    (C6_get_shortest_path (ordersCustomersGraph (fun _ => "h")) "Orders" "Customers" hWf).2
      (by decide) (by decide) ⟨_, hw⟩⟩
